import Mathlib

/-!
# Verification of `KrylovSchurGEigsBase.h`

A shallow embedding of the restart-cycle orchestrator in
`include/Spectra/KrylovSchurGEigsBase.h` (the Krylov-Schur eigenvalue solver
base class), together with theorems checking the natural-language
specification against it.

Modelling conventions:
* the C++ `Scalar` type is modelled by `ℚ` (an ordered field; none of the
  orchestrator's own arithmetic divides, so every computation stays exact);
* `std::complex<Scalar>` is modelled by `ℚ × ℚ` (real and imaginary parts);
* Eigen dynamic matrices are lists of rows, vectors are lists;
* the external collaborators (Krylov factorization engine, dense Schur and
  eigen kernels, Givens-rotation construction, the `SortEigenvalue`
  comparators of `Util/SelectionRule.h`, machine epsilon and `std::pow`,
  complex modulus) are parameters of the embedding, bundled in `Kernels`;
* `throw std::invalid_argument` is modelled with `Except`.
-/

namespace Spectra

/-- A complex scalar: real and imaginary part. -/
abbrev Cplx : Type := ℚ × ℚ

/-- A complex vector. -/
abbrev CVec : Type := List Cplx

/-- A real dense matrix, stored as its list of rows. -/
abbrev Mat : Type := List (List ℚ)

/-- A complex dense matrix, stored as its list of rows. -/
abbrev CMat : Type := List (List Cplx)

/-- Entry `(i, j)` of a real matrix (0 outside the stored rectangle). -/
def getE (M : Mat) (i j : ℕ) : ℚ :=
  (M.getD i []).getD j 0

/-- Complex addition on `Cplx`. -/
def cadd (x y : Cplx) : Cplx := (x.1 + y.1, x.2 + y.2)

/-- Complex multiplication on `Cplx`. -/
def cmul (x y : Cplx) : Cplx := (x.1 * y.1 - x.2 * y.2, x.1 * y.2 + x.2 * y.1)

/-- Dot product of two complex lists (zipped; missing entries contribute 0). -/
def cdot (v w : CVec) : Cplx :=
  (List.zipWith cmul v w).foldl cadd (0, 0)

/-- Complexify a real matrix. -/
def matC (M : Mat) : CMat := M.map (fun row => row.map (fun x => (x, 0)))

/-- Column `j` of a complex matrix. -/
def colC (M : CMat) (j : ℕ) : CVec := M.map (fun row => row.getD j (0, 0))

/-- Number of columns of a complex matrix (width of its first row). -/
def colCountC (M : CMat) : ℕ := (M.getD 0 []).length

/-- Product of two complex matrices (`A : m×p`, `B : p×n`). -/
def cmatMul (A B : CMat) : CMat :=
  A.map (fun row => (List.range (colCountC B)).map (fun j => cdot row (colC B j)))

/-- Real part of a complex matrix, entrywise. -/
def cmatRe (M : CMat) : Mat := M.map (fun row => row.map Prod.fst)

/-- Dot product of two rational lists. -/
def qdot (v w : List ℚ) : ℚ := (List.zipWith (· * ·) v w).foldl (· + ·) 0

/-- Column `j` of a real matrix. -/
def colM (M : Mat) (j : ℕ) : List ℚ := M.map (fun row => row.getD j 0)

/-- Number of columns of a real matrix (width of its first row). -/
def colCountM (M : Mat) : ℕ := (M.getD 0 []).length

/-- A `1×p` row vector times a `p×n` real matrix, as a list of length `n`. -/
def rowTimesMat (v : List ℚ) (M : Mat) : List ℚ :=
  (List.range (colCountM M)).map (fun j => qdot v (colM M j))

/-- A real `1×p` row vector times a `p×n` complex matrix
(`H.bottomRows(1) * U` in the source). -/
def rowTimesCMat (v : List ℚ) (M : CMat) : CVec :=
  (List.range (colCountC M)).map (fun j => cdot (v.map (fun x => (x, 0))) (colC M j))

/-- `M.topLeftCorner(r, c)`. -/
def topLeftM (M : Mat) (r c : ℕ) : Mat := (M.take r).map (fun row => row.take c)

/-- `M.leftCols(c)`. -/
def leftColsM (M : Mat) (c : ℕ) : Mat := M.map (fun row => row.take c)

/-- `M.bottomRows(1)` as a list (the last row of `M`). -/
def lastRowM (M : Mat) : List ℚ := M.getD (M.length - 1) []

/-- `T.diagonal()` promoted to a complex vector (`d = T.diagonal()` at
line 412 of the source assigns real diagonal entries to the complex `d`). -/
def diagC (T : Mat) : CVec :=
  (List.range T.length).map (fun i => (getE T i i, 0))

/-- `d(ind)`: entry `j` of the result is `d[ind[j]]`.  This is what
`reorder.inverse() * d` computes at lines 393-394 of the source for the
permutation matrix with `reorder.indices() = ind`. -/
def permuteL (ind : List ℕ) (v : CVec) : CVec :=
  ind.map (fun j => v.getD j (0, 0))

/-- `res(ind)` for the real residual vector (line 394 of the source). -/
def permuteLQ (ind : List ℕ) (v : List ℚ) : List ℚ :=
  ind.map (fun j => v.getD j 0)

/-- `U * reorder`: column `j` of the result is column `ind[j]` of `U`
(line 466 of the source). -/
def permuteCols (ind : List ℕ) (U : CMat) : CMat :=
  U.map (fun row => ind.map (fun j => row.getD j (0, 0)))

/-!
## Convergence tester (`num_converged`, source lines 107-123)

`eps23` stands for `pow(TypeTraits<Scalar>::epsilon(), 2/3)` — the machine
epsilon lookup and `std::pow` are external — and `cabs` for the complex
modulus used by `.abs()` on a complex array.
-/

/-- `num_converged` (source lines 107-123): per wanted Ritz value the
threshold is `tol * max(|theta|, eps23)`; it records the boolean mask
`m_evals_conv` and returns it together with its `count()`. -/
def num_converged (cabs : Cplx → ℚ) (eps23 : ℚ) (nev : ℕ) (tol : ℚ)
    (evals : CVec) (res : List ℚ) : List Bool × ℕ :=
  let thresh := (evals.take nev).map (fun z => tol * max (cabs z) eps23)
  let conv := List.zipWith (fun r t => decide (r < t)) (res.take nev) thresh
  (conv, conv.count true)

/-!
## Restart-size adjuster (`nev_adjusted`, source lines 126-138)
-/

/-- `nev_adjusted` (source lines 126-138): the stagnation-avoidance
heuristic producing the next retained subspace size. -/
def nev_adjusted (nev ncv : ℕ) (nconv nconvold : ℕ) : ℕ :=
  let nev_new := nev + min nconv ((ncv - nev) / 2)
  let nev_new := if nev_new = 1 ∧ 3 < ncv then ncv / 2 else nev_new
  if nev_new + 1 < ncv ∧ nconv < nconvold then nev_new + 1 else nev_new

/-- The three-step description of the restart-size adjustment as the
specification words it: a base value, a degenerate-subspace override, and
the stagnation-escape increment. -/
def nev_adjusted_spec (nev ncv : ℕ) (nconv nconv_prev : ℕ) : ℕ :=
  let base := nev + min nconv ((ncv - nev) / 2)
  let after_override := if base = 1 ∧ 3 < ncv then ncv / 2 else base
  if after_override + 1 < ncv ∧ nconv < nconv_prev then after_override + 1
  else after_override

/-- C4: the convergence tester counts index `j ∈ [0, nev)` as converged
exactly when `res[j] < tol * max(eps^(2/3), |d[j]|)`; it returns the number
of such indices and records the corresponding boolean mask of length
`nev`. -/
theorem claim_C4_num_converged (cabs : Cplx → ℚ) (eps23 : ℚ) (nev : ℕ)
    (tol : ℚ) (evals : CVec) (res : List ℚ)
    (hd : nev ≤ evals.length) (hr : nev ≤ res.length) :
    num_converged cabs eps23 nev tol evals res =
      ((List.range nev).map
         (fun j => decide (res.getD j 0 < tol * max eps23 (cabs (evals.getD j 0)))),
       ((List.range nev).filter
         (fun j => decide (res.getD j 0 < tol * max eps23 (cabs (evals.getD j 0))))).length) := by
  have hmask : List.zipWith (fun r t => decide (r < t)) (res.take nev)
      ((evals.take nev).map (fun z => tol * max (cabs z) eps23)) =
      (List.range nev).map
        (fun j => decide (res.getD j 0 < tol * max eps23 (cabs (evals.getD j 0)))) := by
    induction nev generalizing evals res with
    | zero => simp
    | succ m ih =>
      match evals, res with
      | [], _ => simp at hd
      | _, [] => simp at hr
      | e :: evals', r :: res' =>
        simp only [List.take_succ_cons, List.map_cons, List.zipWith_cons_cons,
          List.range_succ_eq_map, List.map_cons, List.map_map]
        congr 1
        · simp [max_comm]
        · rw [ih evals' res' (by simpa using hd) (by simpa using hr)]
          apply List.map_congr_left
          intro j _
          simp [Function.comp]
  have h0 : num_converged cabs eps23 nev tol evals res =
      (List.zipWith (fun r t => decide (r < t)) (res.take nev)
        ((evals.take nev).map (fun z => tol * max (cabs z) eps23)),
       (List.zipWith (fun r t => decide (r < t)) (res.take nev)
        ((evals.take nev).map (fun z => tol * max (cabs z) eps23))).count true) := rfl
  rw [h0, hmask]
  congr 1
  rw [List.count_eq_countP, List.countP_map, List.countP_eq_length_filter]
  congr 1
  apply List.filter_congr
  intro j _
  simp

/-- C4 witness: a concrete evaluation of the convergence tester. -/
theorem claim_C4_witness :
    (1 ≤ ([((5 : ℚ), (0 : ℚ))] : CVec).length) ∧ (1 ≤ ([(1 : ℚ)] : List ℚ).length) ∧
    num_converged (fun z => |z.1| + |z.2|) (1/1000) 1 (1/2) [((5 : ℚ), (0 : ℚ))] [(1 : ℚ)] =
      ((List.range 1).map
         (fun j => decide (([(1 : ℚ)] : List ℚ).getD j 0 <
            (1/2) * max (1/1000) ((fun z : Cplx => |z.1| + |z.2|) (([((5 : ℚ), (0 : ℚ))] : CVec).getD j 0)))),
       ((List.range 1).filter
         (fun j => decide (([(1 : ℚ)] : List ℚ).getD j 0 <
            (1/2) * max (1/1000) ((fun z : Cplx => |z.1| + |z.2|) (([((5 : ℚ), (0 : ℚ))] : CVec).getD j 0))))).length) :=
  ⟨by decide, by decide,
    claim_C4_num_converged (fun z => |z.1| + |z.2|) (1/1000) 1 (1/2)
      [((5 : ℚ), (0 : ℚ))] [(1 : ℚ)] (by decide) (by decide)⟩

/-- C5: the restart-size adjuster computes
`nev_new = nev + min(nconv, (ncv - nev) / 2)`, overrides to `ncv / 2` when
`nev_new = 1 ∧ ncv > 3`, and adds 1 when `nev_new + 1 < ncv` and the
convergence count regressed; the result of the three steps is returned. -/
theorem claim_C5_nev_adjusted (nev ncv nconv nconv_prev : ℕ) :
    nev_adjusted nev ncv nconv nconv_prev =
      nev_adjusted_spec nev ncv nconv nconv_prev := by
  rfl

/-- C6: under the constructor precondition `1 ≤ nev < ncv` and
`nconv ≤ nev`, the adjusted size satisfies `nev ≤ nev_new < ncv`. -/
theorem claim_C6_nev_adjusted_bounds (nev ncv nconv nconvold : ℕ)
    (h1 : 1 ≤ nev) (h2 : nev < ncv) (h3 : nconv ≤ nev) :
    nev ≤ nev_adjusted nev ncv nconv nconvold ∧
      nev_adjusted nev ncv nconv nconvold < ncv := by
  unfold nev_adjusted
  dsimp only
  split_ifs <;> omega

/-- C6 witness: concrete bounds check at `nev = 1`, `ncv = 3`,
`nconv = 1`, `nconv_prev = 0`. -/
theorem claim_C6_witness :
    (1 ≤ 1 ∧ 1 < 3 ∧ 1 ≤ 1) ∧
      (1 ≤ nev_adjusted 1 3 1 0 ∧ nev_adjusted 1 3 1 0 < 3) :=
  ⟨⟨le_refl 1, by omega, le_refl 1⟩,
    claim_C6_nev_adjusted_bounds 1 3 1 0 (le_refl 1) (by omega) (le_refl 1)⟩

/-!
## Selection rules and `which_eigenvalues` (source lines 188-234)
-/

/-- Modelled from the spec: the `SortRule` enumeration of
`Util/SelectionRule.h` (not under `src/`).  The spec names the six
supported selection rules; `LargestAlge`, `SmallestAlge` and `BothEnds`
are further enumerators referenced by the source (`SortRule::LargestAlge`
is the default `sorting` argument of `compute`). -/
inductive SortRule where
  | LargestMagn
  | LargestReal
  | LargestImag
  | LargestAlge
  | SmallestMagn
  | SmallestReal
  | SmallestImag
  | SmallestAlge
  | BothEnds
deriving DecidableEq

/-- `which_eigenvalues` (source lines 188-234): the six-way switch over the
selection rule; every supported case builds a `SortEigenvalue` comparator
(external, `Util/SelectionRule.h`) over the first `ncv` entries and
returns the sorting index vector; the default case throws
`std::invalid_argument`. -/
def which_eigenvalues (sorter : SortRule → CVec → List ℕ) (ncv : ℕ)
    (evals : CVec) (sort_rule : SortRule) : Except Unit (List ℕ) :=
  match sort_rule with
  | SortRule.LargestMagn => Except.ok (sorter SortRule.LargestMagn (evals.take ncv))
  | SortRule.LargestReal => Except.ok (sorter SortRule.LargestReal (evals.take ncv))
  | SortRule.LargestImag => Except.ok (sorter SortRule.LargestImag (evals.take ncv))
  | SortRule.SmallestMagn => Except.ok (sorter SortRule.SmallestMagn (evals.take ncv))
  | SortRule.SmallestReal => Except.ok (sorter SortRule.SmallestReal (evals.take ncv))
  | SortRule.SmallestImag => Except.ok (sorter SortRule.SmallestImag (evals.take ncv))
  | _ => Except.error ()

/-- Whether a selection rule is one of the six handled by
`which_eigenvalues`. -/
def supportedRule : SortRule → Bool
  | SortRule.LargestMagn | SortRule.LargestReal | SortRule.LargestImag
  | SortRule.SmallestMagn | SortRule.SmallestReal | SortRule.SmallestImag => true
  | _ => false

theorem which_eigenvalues_error (sorter : SortRule → CVec → List ℕ) (ncv : ℕ)
    (evals : CVec) (r : SortRule) (h : supportedRule r = false) :
    which_eigenvalues sorter ncv evals r = Except.error () := by
  cases r <;> simp_all [supportedRule, which_eigenvalues]

/-!
## `List.getD`/`List.set` helpers
-/

theorem getD_set_self (l : List α) (i : ℕ) (a d : α) (h : i < l.length) :
    (l.set i a).getD i d = a := by
  rw [List.getD_eq_getElem?_getD, List.getElem?_set_self h]
  rfl

theorem getD_set_ne (l : List α) (i j : ℕ) (a d : α) (h : i ≠ j) :
    (l.set i a).getD j d = l.getD j d := by
  rw [List.getD_eq_getElem?_getD, List.getElem?_set_ne h, ← List.getD_eq_getElem?_getD]

theorem count_true_set (l : List Bool) (i : ℕ) (h : i < l.length)
    (hf : l.getD i false = false) :
    (l.set i true).count true = l.count true + 1 := by
  have hgl : l[i] = false := by
    have h2 : l.getD i false = l[i] := List.getD_eq_getElem l false h
    rw [h2] at hf
    exact hf
  rw [List.count_set true true l i h, hgl]
  simp

/-!
## The conjugate-pair safety pass (source lines 421-438)
-/

/-- One step of the conjugate-pair pass (the body of the loop at source
lines 424-437, for the visited index `i`): when the entry directly below a
position on the sub-diagonal of `T` is nonzero and the partner position is
not yet selected, the partner is selected and `nev_new` incremented, and
symmetrically for the entry directly above. -/
def conjPairStep (T : Mat) (ncv : ℕ) (st : List Bool × ℕ) (i : ℕ) :
    List Bool × ℕ :=
  let st1 :=
    if i + 1 < ncv ∧ getE T (i + 1) i ≠ 0 ∧ st.1.getD (i + 1) false = false then
      (st.1.set (i + 1) true, st.2 + 1)
    else st
  if 0 < i ∧ getE T i (i - 1) ≠ 0 ∧ st1.1.getD (i - 1) false = false then
    (st1.1.set (i - 1) true, st1.2 + 1)
  else st1

/-- The conjugate-pair safety pass: the source iterates over every entry
of `ind_sel` (the whole sorting index vector, kept indices or not),
applying `conjPairStep`. -/
def conjPairPass (T : Mat) (ncv : ℕ) (order : List ℕ) (sel : List Bool)
    (nev_new : ℕ) : List Bool × ℕ :=
  order.foldl (conjPairStep T ncv) (sel, nev_new)

/-- The conjugate-pair pass as claim C7 words it: only a KEPT index `i`
triggers the marking of its partner.  (The source has no such guard.) -/
def conjPairStepSpec (T : Mat) (ncv : ℕ) (st : List Bool × ℕ) (i : ℕ) :
    List Bool × ℕ :=
  if st.1.getD i false = true then conjPairStep T ncv st i else st

/-- The claim-described pass, folded over the same visiting order. -/
def conjPairPassSpec (T : Mat) (ncv : ℕ) (order : List ℕ) (sel : List Bool)
    (nev_new : ℕ) : List Bool × ℕ :=
  order.foldl (conjPairStepSpec T ncv) (sel, nev_new)

/-- A quasi-triangular `T` with a 2×2 block at positions (2,3) — entry
`T(3,2) = 5` — used to separate the source's pass from the claimed one. -/
def c7T : Mat := [[1, 0, 0, 0], [0, 2, 0, 0], [0, 0, 3, 0], [0, 0, 5, 4]]

/-- A keep-mask keeping only index 0; the 2×2 block at (2,3) is entirely
discarded. -/
def c7sel : List Bool := [true, false, false, false]

/-- The mark-state characterization: after visiting the indices in `vis`,
position `j` is selected iff it was initially selected or one of its
sub-diagonal neighbours is nonzero and the corresponding partner index has
been visited. -/
def ConjMarkP (T : Mat) (ncv : ℕ) (sel : List Bool) (vis : List ℕ) (j : ℕ) :
    Prop :=
  sel.getD j false = true ∨
    (0 < j ∧ j < ncv ∧ getE T j (j - 1) ≠ 0 ∧ (j - 1) ∈ vis) ∨
    (j + 1 < ncv ∧ getE T (j + 1) j ≠ 0 ∧ (j + 1) ∈ vis)

theorem conjPairStep_fst_getD (T : Mat) (ncv : ℕ) (st : List Bool × ℕ)
    (i j : ℕ) (hi : i < ncv) (hlen : st.1.length = ncv) :
    ((conjPairStep T ncv st i).1.getD j false = true ↔
      (st.1.getD j false = true ∨
        (j = i + 1 ∧ i + 1 < ncv ∧ getE T (i + 1) i ≠ 0) ∨
        (j = i - 1 ∧ 0 < i ∧ getE T i (i - 1) ≠ 0))) := by
  unfold conjPairStep
  dsimp only
  split_ifs with h1 h2 h2
  · -- both rules fire
    dsimp only at h2 ⊢
    by_cases hj1 : j = i - 1
    · subst hj1
      rw [getD_set_self _ _ _ _ (by rw [List.length_set, hlen]; omega)]
      simp [h2.1, h2.2.1]
    · rw [getD_set_ne _ _ _ _ _ (fun e => hj1 e.symm)]
      by_cases hj2 : j = i + 1
      · subst hj2
        rw [getD_set_self _ _ _ _ (by rw [hlen]; exact h1.1)]
        simp [h1.1, h1.2.1]
      · rw [getD_set_ne _ _ _ _ _ (fun e => hj2 e.symm)]
        constructor
        · exact Or.inl
        · rintro (h | ⟨rfl, _, _⟩ | ⟨rfl, _, _⟩)
          · exact h
          · exact absurd rfl hj2
          · exact absurd rfl hj1
  · -- only rule 1 fires
    dsimp only at h2 ⊢
    by_cases hj2 : j = i + 1
    · subst hj2
      rw [getD_set_self _ _ _ _ (by rw [hlen]; exact h1.1)]
      simp [h1.1, h1.2.1]
    · rw [getD_set_ne _ _ _ _ _ (fun e => hj2 e.symm)]
      constructor
      · exact Or.inl
      · rintro (h | ⟨rfl, _, _⟩ | ⟨rfl, h0, hT⟩)
        · exact h
        · exact absurd rfl hj2
        · push_neg at h2
          have h3 := h2 h0 hT
          rw [getD_set_ne _ _ _ _ _ (by omega)] at h3
          simpa using h3
  · -- only rule 2 fires
    dsimp only at h2 ⊢
    by_cases hj1 : j = i - 1
    · subst hj1
      rw [getD_set_self _ _ _ _ (by rw [hlen]; omega)]
      simp [h2.1, h2.2.1]
    · rw [getD_set_ne _ _ _ _ _ (fun e => hj1 e.symm)]
      constructor
      · exact Or.inl
      · rintro (h | ⟨rfl, hlt, hT⟩ | ⟨rfl, _, _⟩)
        · exact h
        · push_neg at h1
          simpa using h1 hlt hT
        · exact absurd rfl hj1
  · -- neither rule fires
    push_neg at h1 h2
    constructor
    · exact Or.inl
    · rintro (h | ⟨rfl, hlt, hT⟩ | ⟨rfl, h0, hT⟩)
      · exact h
      · simpa using h1 hlt hT
      · simpa using h2 h0 hT

theorem conjPairStep_len (T : Mat) (ncv : ℕ) (st : List Bool × ℕ) (i : ℕ) :
    (conjPairStep T ncv st i).1.length = st.1.length := by
  unfold conjPairStep
  dsimp only
  split_ifs <;> simp

theorem conjPairStep_count (T : Mat) (ncv : ℕ) (st : List Bool × ℕ) (i : ℕ)
    (hi : i < ncv) (hlen : st.1.length = ncv) :
    (conjPairStep T ncv st i).2 + st.1.count true =
      st.2 + (conjPairStep T ncv st i).1.count true := by
  unfold conjPairStep
  dsimp only
  split_ifs with h1 h2 h2
  · dsimp only at h2 ⊢
    rw [count_true_set _ _ (by rw [List.length_set, hlen]; omega) h2.2.2,
      count_true_set _ _ (by rw [hlen]; exact h1.1) h1.2.2]
    ring
  · dsimp only
    rw [count_true_set _ _ (by rw [hlen]; exact h1.1) h1.2.2]
    ring
  · dsimp only at h2 ⊢
    rw [count_true_set _ _ (by rw [hlen]; omega) h2.2.2]
    ring
  · rfl

theorem conjPairPass_invariant (T : Mat) (ncv : ℕ) (sel : List Bool)
    (nev0 : ℕ) :
    ∀ (rest vis : List ℕ) (st : List Bool × ℕ),
      (∀ x ∈ rest, x < ncv) →
      st.1.length = ncv →
      (∀ j, j < ncv → (st.1.getD j false = true ↔ ConjMarkP T ncv sel vis j)) →
      st.2 + sel.count true = nev0 + st.1.count true →
      ((rest.foldl (conjPairStep T ncv) st).1.length = ncv ∧
        (∀ j, j < ncv →
          ((rest.foldl (conjPairStep T ncv) st).1.getD j false = true ↔
            ConjMarkP T ncv sel (vis ++ rest) j)) ∧
        (rest.foldl (conjPairStep T ncv) st).2 + sel.count true =
          nev0 + (rest.foldl (conjPairStep T ncv) st).1.count true) := by
  intro rest
  induction rest with
  | nil =>
    intro vis st _ hlen hmask hcount
    exact ⟨hlen, by simpa using hmask, hcount⟩
  | cons i rest ih =>
    intro vis st hrest hlen hmask hcount
    have hi : i < ncv := hrest i (by simp)
    have hlen' : (conjPairStep T ncv st i).1.length = ncv := by
      rw [conjPairStep_len]; exact hlen
    have hmask' : ∀ j, j < ncv →
        ((conjPairStep T ncv st i).1.getD j false = true ↔
          ConjMarkP T ncv sel (vis ++ [i]) j) := by
      intro j hj
      rw [conjPairStep_fst_getD T ncv st i j hi hlen, hmask j hj]
      unfold ConjMarkP
      constructor
      · rintro ((hs | ⟨h0, hjn, hT, hm⟩ | ⟨hjn, hT, hm⟩) | ⟨rfl, hlt, hT⟩ |
          ⟨rfl, h0, hT⟩)
        · exact Or.inl hs
        · exact Or.inr (Or.inl ⟨h0, hjn, hT, by simp [hm]⟩)
        · exact Or.inr (Or.inr ⟨hjn, hT, by simp [hm]⟩)
        · exact Or.inr (Or.inl ⟨by omega, hlt, by simpa using hT, by simp⟩)
        · refine Or.inr (Or.inr ⟨by omega, ?_, ?_⟩)
          · have he : i - 1 + 1 = i := by omega
            rw [he]; exact hT
          · have he : i - 1 + 1 = i := by omega
            rw [he]; simp
      · rintro (hs | ⟨h0, hjn, hT, hm⟩ | ⟨hjn, hT, hm⟩)
        · exact Or.inl (Or.inl hs)
        · rcases List.mem_append.mp hm with hm | hm
          · exact Or.inl (Or.inr (Or.inl ⟨h0, hjn, hT, hm⟩))
          · have h1 : j - 1 = i := List.mem_singleton.mp hm
            have hji : j = i + 1 := by omega
            refine Or.inr (Or.inl ⟨hji, by omega, ?_⟩)
            have h2 : i + 1 = j := hji.symm
            rw [h2]
            have h3 : i = j - 1 := h1.symm
            rw [h3]
            exact hT
        · rcases List.mem_append.mp hm with hm | hm
          · exact Or.inl (Or.inr (Or.inr ⟨hjn, hT, hm⟩))
          · have h1 : j + 1 = i := List.mem_singleton.mp hm
            have h0i : 0 < i := by omega
            refine Or.inr (Or.inr ⟨by omega, h0i, ?_⟩)
            have h2 : i = j + 1 := h1.symm
            rw [h2]
            simpa using hT
    have hcount' : (conjPairStep T ncv st i).2 + sel.count true =
        nev0 + (conjPairStep T ncv st i).1.count true := by
      have hc := conjPairStep_count T ncv st i hi hlen
      omega
    have := ih (vis ++ [i]) (conjPairStep T ncv st i)
      (fun x hx => hrest x (by simp [hx])) hlen' hmask' hcount'
    simpa [List.foldl_cons, List.append_assoc] using this

/-- C7 counterexample: with the 2×2 block at positions (2,3) entirely
outside the keep set, the source's pass (which visits every index, kept or
not) marks both halves of the block kept and increments `nev_new` twice,
whereas the pass described by the claim (acting only for kept indices)
leaves the mask and `nev_new` unchanged. -/
theorem claim_C7_counterexample :
    conjPairPass c7T 4 [0, 1, 2, 3] c7sel 1 = ([true, false, true, true], 3) ∧
    conjPairPassSpec c7T 4 [0, 1, 2, 3] c7sel 1 =
      ([true, false, false, false], 1) ∧
    conjPairPass c7T 4 [0, 1, 2, 3] c7sel 1 ≠
      conjPairPassSpec c7T 4 [0, 1, 2, 3] c7sel 1 := by
  refine ⟨by decide, by decide, by decide⟩

/-- C7 (amended): the pass visits every index of the sorting vector (not
only kept ones); a position `j` ends up kept iff it was kept initially or
one of its sub-diagonal neighbour entries of `T` is nonzero; `nev_new`
grows by exactly the number of newly kept positions; consequently no 2×2
block (nonzero sub-diagonal entry) has one position kept and the other
discarded after the pass. -/
theorem claim_C7_conj_pair_pass (T : Mat) (ncv : ℕ) (order : List ℕ)
    (sel : List Bool) (nev0 : ℕ) (hlen : sel.length = ncv)
    (hmem : ∀ j, j ∈ order ↔ j < ncv) :
    ((conjPairPass T ncv order sel nev0).1.length = ncv) ∧
    (∀ j, j < ncv →
      ((conjPairPass T ncv order sel nev0).1.getD j false = true ↔
        (sel.getD j false = true ∨ (0 < j ∧ getE T j (j - 1) ≠ 0) ∨
          (j + 1 < ncv ∧ getE T (j + 1) j ≠ 0)))) ∧
    ((conjPairPass T ncv order sel nev0).2 + sel.count true =
      nev0 + (conjPairPass T ncv order sel nev0).1.count true) ∧
    (∀ j, j + 1 < ncv → getE T (j + 1) j ≠ 0 →
      (conjPairPass T ncv order sel nev0).1.getD j false = true ∧
      (conjPairPass T ncv order sel nev0).1.getD (j + 1) false = true) := by
  have hbase := conjPairPass_invariant T ncv sel nev0 order [] (sel, nev0)
    (fun x hx => (hmem x).mp hx) hlen
    (by
      intro j hj
      unfold ConjMarkP
      simp)
    (by dsimp only)
  have hmain : ∀ j, j < ncv →
      ((conjPairPass T ncv order sel nev0).1.getD j false = true ↔
        (sel.getD j false = true ∨ (0 < j ∧ getE T j (j - 1) ≠ 0) ∨
          (j + 1 < ncv ∧ getE T (j + 1) j ≠ 0))) := by
    intro j hj
    rw [show conjPairPass T ncv order sel nev0 =
        order.foldl (conjPairStep T ncv) (sel, nev0) from rfl]
    rw [hbase.2.1 j hj]
    unfold ConjMarkP
    constructor
    · rintro (hs | ⟨h0, _, hT, _⟩ | ⟨hjn, hT, _⟩)
      · exact Or.inl hs
      · exact Or.inr (Or.inl ⟨h0, hT⟩)
      · exact Or.inr (Or.inr ⟨hjn, hT⟩)
    · rintro (hs | ⟨h0, hT⟩ | ⟨hjn, hT⟩)
      · exact Or.inl hs
      · exact Or.inr (Or.inl ⟨h0, hj, hT, by simp [hmem]; omega⟩)
      · exact Or.inr (Or.inr ⟨hjn, hT, by simp [hmem]; omega⟩)
  refine ⟨hbase.1, hmain, hbase.2.2, ?_⟩
  intro j hj hT
  constructor
  · exact (hmain j (by omega)).mpr (Or.inr (Or.inr ⟨hj, hT⟩))
  · exact (hmain (j + 1) hj).mpr (Or.inr (Or.inl ⟨by omega, by simpa using hT⟩))

/-- C7 witness: the amended theorem applied to the concrete block matrix
`c7T`: both halves of the (2,3) block end up kept. -/
theorem claim_C7_witness :
    (c7sel.length = 4) ∧
    ((conjPairPass c7T 4 [0, 1, 2, 3] c7sel 1).1.getD 2 false = true ∧
      (conjPairPass c7T 4 [0, 1, 2, 3] c7sel 1).1.getD 3 false = true) :=
  ⟨by decide,
    (claim_C7_conj_pair_pass c7T 4 [0, 1, 2, 3] c7sel 1 (by decide)
        (fun j => by simp; omega)).2.2.2 2 (by omega) (by decide)⟩

/-!
## Schur reordering (`ordschur`, source lines 141-184)

The permutation vector is built in two ascending passes (kept positions
first), then realized by a bubble pass of adjacent transpositions.  Each
transposition is an adjacent Givens rotation (constructed by the external
`Eigen::JacobiRotation::makeGivens`, here the parameter `mkG`) applied to
`T` on both sides and to `U` on the right, together with a swap of the two
adjacent permutation entries.  The generic `bubbleDown`/`ordschurOuter`
below carry the permutation vector and the rotated payload `a` (the
matrix pair for the real solver; the tracked list of original diagonal
positions for the bookkeeping theorems).
-/

/-- One pass of the permutation-building loop (source lines 147-163,
written as ascending structural recursion on the number of processed
indices): every position `j < m` whose select flag equals `p` receives
the running counter value. -/
def buildPermPass (sel : List Bool) (p : Bool) (st : List ℕ × ℕ) :
    ℕ → List ℕ × ℕ
  | 0 => st
  | m + 1 =>
    let st1 := buildPermPass sel p st m
    if sel.getD m false = p then (st1.1.set m st1.2, st1.2 + 1) else st1

/-- The permutation vector built by `ordschur` (source lines 146-163):
first pass over kept positions, second pass over discarded positions,
with one running counter. -/
def buildPerm (sel : List Bool) : List ℕ :=
  let st1 := buildPermPass sel true (List.replicate sel.length 0, 0) sel.length
  (buildPermPass sel false st1 sel.length).1

/-- Swap the adjacent entries `k` and `k + 1` of a list (identity when
`k + 1` is out of range). -/
def swapAdj (l : List γ) (k : ℕ) : List γ :=
  match l[k]?, l[k + 1]? with
  | some a, some b => (l.set k b).set (k + 1) a
  | _, _ => l

/-- `i + ` the index of the first entry of `perm.drop i` equal to `i`:
the inner search loop of `ordschur` (source lines 167-172). -/
def findFrom (perm : List ℕ) (i : ℕ) : ℕ :=
  i + ((perm.drop i).findIdx (fun x => x = i))

/-- The inner loop of `ordschur` (source lines 174-182): from `k` down to
`i`, apply the rotation action `rotAt` at positions `(k, k+1)` and swap
the permutation entries `k` and `k + 1`. -/
def bubbleDown (rotAt : α → ℕ → α) (i : ℕ) : ℕ → List ℕ → α → List ℕ × α
  | k, perm, a =>
    if k < i then (perm, a)
    else
      let a1 := rotAt a k
      let perm1 := swapAdj perm k
      match k with
      | 0 => (perm1, a1)
      | k' + 1 => bubbleDown rotAt i k' perm1 a1

/-- The outer loop of `ordschur` (source lines 165-183): for each target
position `i` (the remaining iteration count is `fuel`, initially
`select.size() - 1`), find the position `j ≥ i` holding permutation value
`i` and bubble it down to position `i`. -/
def ordschurOuter (rotAt : α → ℕ → α) : ℕ → ℕ → List ℕ → α → List ℕ × α
  | 0, _, perm, a => (perm, a)
  | fuel + 1, i, perm, a =>
    let j := findFrom perm i
    let pa := if i < j then bubbleDown rotAt i (j - 1) perm a else (perm, a)
    ordschurOuter rotAt fuel (i + 1) pa.1 pa.2

/-- Update of a row by a right-rotation on columns `(k, k+1)` with
cosine/sine `(c, s)`. -/
def rowCombine (row : List ℚ) (k : ℕ) (c s : ℚ) : List ℚ :=
  let x := row.getD k 0
  let y := row.getD (k + 1) 0
  (row.set k (c * x - s * y)).set (k + 1) (s * x + c * y)

/-- `M.applyOnTheRight(k, k+1, rotation)` (external Eigen kernel; a fixed
real Givens convention is used, the reordering theorems never depend on
it). -/
def applyRotRight (M : Mat) (k : ℕ) (c s : ℚ) : Mat :=
  M.map (fun row => rowCombine row k c s)

/-- Scalar multiple of a row. -/
def smulRow (c : ℚ) (row : List ℚ) : List ℚ := row.map (fun x => c * x)

/-- Entrywise sum of two rows. -/
def addRow (v w : List ℚ) : List ℚ := List.zipWith (· + ·) v w

/-- `M.applyOnTheLeft(k, k+1, rotation.adjoint())` (external Eigen
kernel, same convention remark as `applyRotRight`). -/
def applyRotLeftAdj (M : Mat) (k : ℕ) (c s : ℚ) : Mat :=
  match M[k]?, M[k + 1]? with
  | some rk, some rk1 =>
    (M.set k (addRow (smulRow c rk) (smulRow (-s) rk1))).set (k + 1)
      (addRow (smulRow s rk) (smulRow c rk1))
  | _, _ => M

/-- The rotation action of one adjacent transposition on the matrix pair
`(U, T)` (source lines 176-180): the Givens rotation is built by the
external kernel `mkG` from `T(k, k+1)` and `T(k+1, k+1) - T(k, k)`,
applied to `T` on both sides and to `U` on the right. -/
def rotAtMat (mkG : ℚ → ℚ → ℚ × ℚ) (UT : Mat × Mat) (k : ℕ) : Mat × Mat :=
  let cs := mkG (getE UT.2 k (k + 1)) (getE UT.2 (k + 1) (k + 1) - getE UT.2 k k)
  let T1 := applyRotLeftAdj UT.2 k cs.1 cs.2
  let T2 := applyRotRight T1 k cs.1 cs.2
  let U1 := applyRotRight UT.1 k cs.1 cs.2
  (U1, T2)

/-- `ordschur(U, T, select)` (source lines 141-184): returns the mutated
pair `(U, T)`. -/
def ordschur (mkG : ℚ → ℚ → ℚ × ℚ) (U T : Mat) (select : List Bool) :
    Mat × Mat :=
  (ordschurOuter (rotAtMat mkG) (select.length - 1) 0 (buildPerm select)
    (U, T)).2

/-- The adjacent-transposition action on the tracked list of original
diagonal positions. -/
def swapRot (l : List ℕ) (k : ℕ) : List ℕ := swapAdj l k

/-- The bookkeeping view of `ordschur`: the payload tracks, for every
diagonal position, the original position whose (1×1 or half of a 2×2)
block currently sits there; each Givens-rotation-and-swap step acts on it
as the adjacent transposition it realizes. -/
def ordschurTrack (select : List Bool) : List ℕ × List ℕ :=
  ordschurOuter swapRot (select.length - 1) 0 (buildPerm select)
    (List.range select.length)

/-!
### `swapAdj` facts
-/

theorem swapAdj_length (l : List γ) (k : ℕ) :
    (swapAdj l k).length = l.length := by
  unfold swapAdj
  cases hk : l[k]? <;> cases hk1 : l[k + 1]? <;> simp

theorem swapAdj_of_ge (l : List γ) (k : ℕ) (h : l.length ≤ k + 1) :
    swapAdj l k = l := by
  unfold swapAdj
  have : l[k + 1]? = none := by
    rw [List.getElem?_eq_none_iff]
    omega
  rw [this]
  cases l[k]? <;> rfl

theorem swapAdj_getD_lt (l : List γ) (k m : ℕ) (d : γ) (h : m < k) :
    (swapAdj l k).getD m d = l.getD m d := by
  unfold swapAdj
  cases hk : l[k]? <;> cases hk1 : l[k + 1]? <;> try rfl
  rw [getD_set_ne _ _ _ _ _ (by omega), getD_set_ne _ _ _ _ _ (by omega)]

theorem swapAdj_getD_gt (l : List γ) (k m : ℕ) (d : γ) (h : k + 1 < m) :
    (swapAdj l k).getD m d = l.getD m d := by
  unfold swapAdj
  cases hk : l[k]? <;> cases hk1 : l[k + 1]? <;> try rfl
  rw [getD_set_ne _ _ _ _ _ (by omega), getD_set_ne _ _ _ _ _ (by omega)]

theorem swapAdj_getD_at (l : List γ) (k : ℕ) (d : γ) (h : k + 1 < l.length) :
    (swapAdj l k).getD k d = l.getD (k + 1) d := by
  have hk : l[k]? = some (l.get ⟨k, by omega⟩) := by
    simp [List.getElem?_eq_getElem (show k < l.length by omega)]
  have hk1 : l[k + 1]? = some (l.get ⟨k + 1, h⟩) := by
    simp [List.getElem?_eq_getElem h]
  unfold swapAdj
  rw [hk, hk1]
  rw [getD_set_ne _ _ _ _ _ (by omega),
    getD_set_self _ _ _ _ (by simpa using Nat.lt_of_succ_lt h)]
  rw [List.getD_eq_getElem l d h]
  rfl

theorem swapAdj_getD_at1 (l : List γ) (k : ℕ) (d : γ) (h : k + 1 < l.length) :
    (swapAdj l k).getD (k + 1) d = l.getD k d := by
  have hk : l[k]? = some (l.get ⟨k, by omega⟩) := by
    simp [List.getElem?_eq_getElem (show k < l.length by omega)]
  have hk1 : l[k + 1]? = some (l.get ⟨k + 1, h⟩) := by
    simp [List.getElem?_eq_getElem h]
  unfold swapAdj
  rw [hk, hk1]
  rw [getD_set_self _ _ _ _ (by simpa using h)]
  rw [List.getD_eq_getElem l d (by omega)]
  rfl

theorem swapAdj_eq_take_cons_drop (l : List γ) (k : ℕ) (h : k + 1 < l.length) :
    swapAdj l k =
      l.take k ++ l.get ⟨k + 1, h⟩ :: l.get ⟨k, by omega⟩ :: l.drop (k + 2) := by
  have hk : k < l.length := by omega
  have hk' : l[k]? = some (l.get ⟨k, hk⟩) := by
    simp [List.getElem?_eq_getElem hk]
  have hk1' : l[k + 1]? = some (l.get ⟨k + 1, h⟩) := by
    simp [List.getElem?_eq_getElem h]
  unfold swapAdj
  rw [hk', hk1']
  dsimp only
  rw [List.set_eq_take_cons_drop _ hk]
  rw [List.set_append_right _ _ (by simp [List.length_take]; try omega)]
  congr 1
  have hlen : (l.take k).length = k := by
    simp [List.length_take]
    omega
  rw [hlen, show k + 1 - k = 1 from by omega]
  have hd : l.drop (k + 1) = l.get ⟨k + 1, h⟩ :: l.drop (k + 2) := by
    rw [← List.getElem_cons_drop l (k + 1) h]
    rfl
  rw [hd]
  rfl

theorem eq_take_cons_cons_drop (l : List γ) (k : ℕ) (h : k + 1 < l.length) :
    l = l.take k ++ l.get ⟨k, by omega⟩ :: l.get ⟨k + 1, h⟩ :: l.drop (k + 2) := by
  have hk : k < l.length := by omega
  conv_lhs => rw [← List.take_append_drop k l]
  congr 1
  rw [← List.getElem_cons_drop l k hk]
  congr 1
  rw [← List.getElem_cons_drop l (k + 1) h]
  rfl

theorem swapAdj_perm (l : List γ) (k : ℕ) : (swapAdj l k).Perm l := by
  by_cases h : k + 1 < l.length
  · rw [swapAdj_eq_take_cons_drop l k h]
    conv_rhs => rw [eq_take_cons_cons_drop l k h]
    exact List.Perm.append_left _ (List.Perm.swap _ _ _)
  · rw [swapAdj_of_ge l k (by omega)]

/-!
### The inner bubble pass as a sequence of adjacent transpositions
-/

/-- The adjacent transpositions performed by one inner bubble pass:
positions `k, k-1, …, i`. -/
def swapSeq (i : ℕ) : ℕ → List γ → List γ
  | k, l =>
    if k < i then l
    else
      match k with
      | 0 => swapAdj l 0
      | k' + 1 => swapSeq i k' (swapAdj l (k' + 1))

theorem swapSeq_of_lt (i k : ℕ) (l : List γ) (h : k < i) :
    swapSeq i k l = l := by
  unfold swapSeq
  rw [if_pos h]

theorem bubbleDown_swap_eq (i : ℕ) :
    ∀ (k : ℕ) (perm a : List ℕ),
      bubbleDown swapRot i k perm a =
        (swapSeq i k perm, swapSeq i k a) := by
  intro k
  induction k using Nat.strong_induction_on with
  | _ k ih =>
    intro perm a
    match k with
    | 0 =>
      unfold bubbleDown swapSeq
      by_cases h0 : 0 < i <;> simp [h0, swapRot]
    | k' + 1 =>
      unfold bubbleDown swapSeq
      by_cases h0 : k' + 1 < i
      · simp [h0]
      · simp only [if_neg h0]
        exact ih k' (by omega) _ _

theorem swapSeq_length (i : ℕ) :
    ∀ (k : ℕ) (l : List γ), (swapSeq i k l).length = l.length := by
  intro k
  induction k using Nat.strong_induction_on with
  | _ k ih =>
    intro l
    match k with
    | 0 =>
      unfold swapSeq
      by_cases h0 : 0 < i <;> simp [h0, swapAdj_length]
    | k' + 1 =>
      unfold swapSeq
      by_cases h0 : k' + 1 < i
      · simp [h0]
      · simp only [if_neg h0]
        rw [ih k' (by omega), swapAdj_length]

theorem swapSeq_perm (i : ℕ) :
    ∀ (k : ℕ) (l : List γ), (swapSeq i k l).Perm l := by
  intro k
  induction k using Nat.strong_induction_on with
  | _ k ih =>
    intro l
    match k with
    | 0 =>
      unfold swapSeq
      by_cases h0 : 0 < i
      · simp [h0]
      · simp only [if_neg h0]
        exact swapAdj_perm l 0
    | k' + 1 =>
      unfold swapSeq
      by_cases h0 : k' + 1 < i
      · simp [h0]
      · simp only [if_neg h0]
        exact (ih k' (by omega) _).trans (swapAdj_perm l (k' + 1))

theorem swapSeq_getD_lt (i : ℕ) (d : γ) :
    ∀ (k m : ℕ) (l : List γ), m < i →
      (swapSeq i k l).getD m d = l.getD m d := by
  intro k
  induction k using Nat.strong_induction_on with
  | _ k ih =>
    intro m l hm
    match k with
    | 0 =>
      unfold swapSeq
      by_cases h0 : 0 < i
      · simp [h0]
      · omega
    | k' + 1 =>
      unfold swapSeq
      by_cases h0 : k' + 1 < i
      · simp [h0]
      · simp only [if_neg h0]
        rw [ih k' (by omega) m _ hm, swapAdj_getD_lt _ _ _ _ (by omega)]

theorem swapSeq_getD_at (i : ℕ) (d : γ) :
    ∀ (k : ℕ) (l : List γ), i ≤ k → k + 1 < l.length →
      (swapSeq i k l).getD i d = l.getD (k + 1) d := by
  intro k
  induction k using Nat.strong_induction_on with
  | _ k ih =>
    intro l hik hk
    match k with
    | 0 =>
      have h0 : i = 0 := by omega
      subst h0
      unfold swapSeq
      rw [if_neg (by omega)]
      exact swapAdj_getD_at l 0 d hk
    | k' + 1 =>
      unfold swapSeq
      rw [if_neg (by omega)]
      show (swapSeq i k' (swapAdj l (k' + 1))).getD i d = l.getD (k' + 1 + 1) d
      by_cases hik' : i ≤ k'
      · rw [ih k' (by omega) _ hik' (by rw [swapAdj_length]; omega)]
        rw [swapAdj_getD_at _ _ _ hk]
      · have hieq : i = k' + 1 := by omega
        rw [swapSeq_of_lt _ _ _ (by omega)]
        rw [hieq]
        exact swapAdj_getD_at l (k' + 1) d hk

theorem swapAdj_cons_succ (x : γ) (xs : List γ) (k : ℕ) :
    swapAdj (x :: xs) (k + 1) = x :: swapAdj xs k := by
  unfold swapAdj
  cases hk : xs[k]? <;> cases hk1 : xs[k + 1]? <;>
    simp [List.getElem?_cons_succ, hk, hk1]

theorem zip_swapAdj :
    ∀ (x y : List ℕ) (k : ℕ), x.length = y.length →
      (swapAdj x k).zip (swapAdj y k) = swapAdj (x.zip y) k := by
  intro x
  induction x with
  | nil =>
    intro y k hlen
    have : y = [] := by
      cases y
      · rfl
      · simp at hlen
    subst this
    simp [swapAdj]
  | cons a xs ih =>
    intro y k hlen
    match y with
    | [] => simp at hlen
    | b :: ys =>
      match k with
      | 0 =>
        match xs, ys with
        | [], [] => simp [swapAdj]
        | [], _ :: _ => simp at hlen
        | _ :: _, [] => simp at hlen
        | a2 :: xs', b2 :: ys' =>
          show (swapAdj (a :: a2 :: xs') 0).zip (swapAdj (b :: b2 :: ys') 0) = _
          have h1 : swapAdj (a :: a2 :: xs') 0 = a2 :: a :: xs' := by
            simp [swapAdj]
          have h2 : swapAdj (b :: b2 :: ys') 0 = b2 :: b :: ys' := by
            simp [swapAdj]
          have h3 : swapAdj ((a, b) :: (a2, b2) :: xs'.zip ys') 0 =
              (a2, b2) :: (a, b) :: xs'.zip ys' := by
            simp [swapAdj]
          simp only [h1, h2, List.zip_cons_cons, h3]
      | k' + 1 =>
        rw [swapAdj_cons_succ, swapAdj_cons_succ, List.zip_cons_cons,
          List.zip_cons_cons, swapAdj_cons_succ,
          ih ys k' (by simpa using hlen)]

theorem swapSeq_zip (i : ℕ) :
    ∀ (k : ℕ) (x y : List ℕ), x.length = y.length →
      (swapSeq i k x).zip (swapSeq i k y) = swapSeq i k (x.zip y) := by
  intro k
  induction k using Nat.strong_induction_on with
  | _ k ih =>
    intro x y hlen
    match k with
    | 0 =>
      unfold swapSeq
      by_cases h0 : 0 < i
      · simp [h0]
      · simp only [if_neg h0]
        exact zip_swapAdj x y 0 hlen
    | k' + 1 =>
      unfold swapSeq
      by_cases h0 : k' + 1 < i
      · simp [h0]
      · simp only [if_neg h0]
        rw [ih k' (by omega) _ _ (by rw [swapAdj_length, swapAdj_length, hlen]),
          zip_swapAdj x y _ hlen]

/-!
### The outer loop sorts the permutation while permuting the payload
-/

theorem findFrom_spec (perm : List ℕ) (i : ℕ)
    (hex : ∃ m, i ≤ m ∧ m < perm.length ∧ perm.getD m 0 = i) :
    i ≤ findFrom perm i ∧ findFrom perm i < perm.length ∧
      perm.getD (findFrom perm i) 0 = i := by
  obtain ⟨m, him, hm, hpm⟩ := hex
  have hdl : m - i < (perm.drop i).length := by
    rw [List.length_drop]
    omega
  have hpm2 : perm[m] = i := by
    rw [← List.getD_eq_getElem perm 0 hm]
    exact hpm
  have hmem : ∃ x ∈ perm.drop i, decide (x = i) = true := by
    refine ⟨(perm.drop i).get ⟨m - i, hdl⟩, List.get_mem _ _ _, ?_⟩
    have h1 : (perm.drop i).get ⟨m - i, hdl⟩ = i := by
      rw [List.get_eq_getElem, List.getElem_drop]
      simp only [show i + (m - i) = m from by omega]
      exact hpm2
    rw [h1]
    simp
  have hlt := List.findIdx_lt_length_of_exists hmem
  have hlen : (perm.drop i).length = perm.length - i := List.length_drop i perm
  refine ⟨Nat.le_add_right _ _, by unfold findFrom; omega, ?_⟩
  have hgot : decide ((perm.drop i)[(perm.drop i).findIdx
      (fun x => decide (x = i))] = i) = true := by
    have h2 := @List.findIdx_getElem _ (fun x => decide (x = i)) (perm.drop i) hlt
    simpa using h2
  rw [List.getElem_drop] at hgot
  unfold findFrom
  rw [List.getD_eq_getElem perm 0 (by omega)]
  simpa using hgot

theorem perm_last_fixed (p : List ℕ) (hperm : p.Perm (List.range p.length))
    (hpre : ∀ m, m + 1 < p.length → p.getD m 0 = m) :
    ∀ m, m < p.length → p.getD m 0 = m := by
  intro m hm
  by_cases hm1 : m + 1 < p.length
  · exact hpre m hm1
  · have hnd : p.Nodup := (hperm.nodup_iff).mpr (List.nodup_range _)
    have hxval : p.getD m 0 = p.get ⟨m, hm⟩ := by
      rw [List.getD_eq_getElem p 0 hm]
      rfl
    have hxmem : p.getD m 0 ∈ p := by
      rw [hxval]
      exact List.get_mem _ _ _
    have hxlt : p.getD m 0 < p.length := by
      have h1 := hperm.mem_iff.mp hxmem
      simpa using h1
    by_contra hne
    have hxm : p.getD m 0 < m := by omega
    have hfix : p.getD (p.getD m 0) 0 = p.getD m 0 := hpre _ (by omega)
    have hinj := List.nodup_iff_injective_get.mp hnd
    have hgx : p.get ⟨p.getD m 0, by omega⟩ = p.getD m 0 := by
      have h2 := List.getD_eq_getElem p 0 (show p.getD m 0 < p.length by omega)
      rw [h2] at hfix
      exact hfix
    have heq : (⟨p.getD m 0, by omega⟩ : Fin p.length) = ⟨m, hm⟩ :=
      hinj (by rw [hgx, ← hxval])
    have : p.getD m 0 = m := congrArg Fin.val heq
    omega

theorem ordschurOuter_swap_spec :
    ∀ (fuel i : ℕ) (p a : List ℕ),
      p.length = a.length →
      fuel + i + 1 = p.length →
      p.Perm (List.range p.length) →
      (∀ m, m < i → p.getD m 0 = m) →
      ((ordschurOuter swapRot fuel i p a).1.length = p.length ∧
        (ordschurOuter swapRot fuel i p a).2.length = a.length ∧
        (∀ m, m < p.length → (ordschurOuter swapRot fuel i p a).1.getD m 0 = m) ∧
        ((ordschurOuter swapRot fuel i p a).1.zip
            (ordschurOuter swapRot fuel i p a).2).Perm (p.zip a)) := by
  intro fuel
  induction fuel with
  | zero =>
    intro i p a hlen hfi hperm hpre
    refine ⟨rfl, rfl, ?_, List.Perm.refl _⟩
    exact perm_last_fixed p hperm (fun m hm => hpre m (by omega))
  | succ fuel ih =>
    intro i p a hlen hfi hperm hpre
    have hilt : i < p.length := by omega
    have hex : ∃ m, i ≤ m ∧ m < p.length ∧ p.getD m 0 = i := by
      have hmemi : i ∈ p := hperm.mem_iff.mpr (List.mem_range.mpr hilt)
      obtain ⟨idx, hidx, hval⟩ := List.mem_iff_getElem.mp hmemi
      refine ⟨idx, ?_, hidx, ?_⟩
      · by_contra hni
        push_neg at hni
        have h1 := hpre idx hni
        rw [List.getD_eq_getElem p 0 hidx] at h1
        omega
      · rw [List.getD_eq_getElem p 0 hidx]
        exact hval
    obtain ⟨hji, hjlt, hjval⟩ := findFrom_spec p i hex
    simp only [ordschurOuter]
    by_cases hij : i < findFrom p i
    · rw [if_pos hij]
      rw [bubbleDown_swap_eq]
      have hk1 : (findFrom p i - 1) + 1 = findFrom p i := by omega
      have hp'len : (swapSeq i (findFrom p i - 1) p).length = p.length :=
        swapSeq_length _ _ _
      have ha'len : (swapSeq i (findFrom p i - 1) a).length = a.length :=
        swapSeq_length _ _ _
      have hp'perm : (swapSeq i (findFrom p i - 1) p).Perm
          (List.range (swapSeq i (findFrom p i - 1) p).length) := by
        rw [hp'len]
        exact (swapSeq_perm _ _ _).trans hperm
      have hpre' : ∀ m, m < i + 1 →
          (swapSeq i (findFrom p i - 1) p).getD m 0 = m := by
        intro m hm
        by_cases hmi : m < i
        · rw [swapSeq_getD_lt _ _ _ _ _ hmi]
          exact hpre m hmi
        · have hmi2 : m = i := by omega
          rw [hmi2]
          rw [swapSeq_getD_at i 0 (findFrom p i - 1) p (by omega) (by omega)]
          rw [hk1]
          exact hjval
      have hih := ih (i + 1) (swapSeq i (findFrom p i - 1) p)
        (swapSeq i (findFrom p i - 1) a)
        (by rw [hp'len, ha'len]; exact hlen)
        (by rw [hp'len]; omega)
        hp'perm
        hpre'
      dsimp only
      refine ⟨?_, ?_, ?_, ?_⟩
      · rw [hih.1, hp'len]
      · rw [hih.2.1, ha'len]
      · intro m hm
        apply hih.2.2.1
        rw [hp'len]
        exact hm
      · refine (hih.2.2.2).trans ?_
        rw [swapSeq_zip i (findFrom p i - 1) p a hlen]
        exact swapSeq_perm _ _ _
    · rw [if_neg hij]
      dsimp only
      have hpi : p.getD i 0 = i := by
        have hji2 : findFrom p i = i := by omega
        rw [hji2] at hjval
        exact hjval
      exact ih (i + 1) p a hlen (by omega) hperm
        (fun m hm => by
          by_cases hmi : m < i
          · exact hpre m hmi
          · have hmi2 : m = i := by omega
            subst hmi2
            exact hpi)

/-!
### Characterization of the built permutation
-/

theorem countP_range_succ (q : ℕ → Bool) (m : ℕ) :
    (List.range (m + 1)).countP q =
      (List.range m).countP q + (if q m then 1 else 0) := by
  rw [List.range_succ, List.countP_append]
  simp [List.countP_cons]

theorem countP_range_mono (q : ℕ → Bool) (m1 m2 : ℕ) (h : m1 ≤ m2) :
    (List.range m1).countP q ≤ (List.range m2).countP q := by
  induction m2 with
  | zero =>
    have : m1 = 0 := by omega
    subst this
    exact le_refl _
  | succ m ih =>
    by_cases hm : m1 ≤ m
    · have h1 := ih hm
      rw [countP_range_succ]
      split_ifs <;> omega
    · have : m1 = m + 1 := by omega
      subst this
      exact le_refl _

theorem countP_range_strict (q : ℕ → Bool) (j m : ℕ) (hq : q j = true)
    (hjm : j < m) :
    (List.range j).countP q < (List.range m).countP q := by
  have h1 : (List.range (j + 1)).countP q = (List.range j).countP q + 1 := by
    rw [countP_range_succ, hq]
    simp
  have h2 := countP_range_mono q (j + 1) m (by omega)
  omega

/-- The rank a diagonal position receives in the permutation built by
`ordschur`: kept positions are numbered by how many kept positions
precede them, discarded positions continue after all kept ones. -/
def permRank (sel : List Bool) (j : ℕ) : ℕ :=
  if sel.getD j false then (List.range j).countP (fun t => sel.getD t false)
  else
    (List.range sel.length).countP (fun t => sel.getD t false) +
      (List.range j).countP (fun t => !(sel.getD t false))

theorem buildPermPass_spec (sel : List Bool) (p : Bool) (perm0 : List ℕ)
    (c0 : ℕ) (hlen : perm0.length = sel.length) :
    ∀ m, m ≤ sel.length →
      ((buildPermPass sel p (perm0, c0) m).1.length = perm0.length ∧
        (buildPermPass sel p (perm0, c0) m).2 =
          c0 + (List.range m).countP (fun t => sel.getD t false == p) ∧
        (∀ j, j < m → sel.getD j false = p →
          (buildPermPass sel p (perm0, c0) m).1.getD j 0 =
            c0 + (List.range j).countP (fun t => sel.getD t false == p)) ∧
        (∀ j, m ≤ j ∨ ¬(sel.getD j false = p) →
          (buildPermPass sel p (perm0, c0) m).1.getD j 0 = perm0.getD j 0)) := by
  intro m
  induction m with
  | zero =>
    intro _
    refine ⟨rfl, by simp [buildPermPass], ?_, ?_⟩
    · intro j hj
      omega
    · intro j _
      rfl
  | succ m ih =>
    intro hm1
    obtain ⟨ihlen, ihc, ihset, ihkeep⟩ := ih (by omega)
    have hstep : buildPermPass sel p (perm0, c0) (m + 1) =
        (if sel.getD m false = p then
          ((buildPermPass sel p (perm0, c0) m).1.set m
            (buildPermPass sel p (perm0, c0) m).2,
           (buildPermPass sel p (perm0, c0) m).2 + 1)
        else buildPermPass sel p (perm0, c0) m) := by
      rfl
    by_cases hpm : sel.getD m false = p
    · rw [hstep, if_pos hpm]
      have hmlt : m < (buildPermPass sel p (perm0, c0) m).1.length := by
        rw [ihlen, hlen]
        omega
      refine ⟨by simpa using ihlen, ?_, ?_, ?_⟩
      · dsimp only
        rw [ihc, countP_range_succ]
        have hbeq : (sel.getD m false == p) = true := by
          rw [hpm]
          simp
        rw [hbeq]
        simp [Nat.add_assoc]
      · intro j hj hjp
        dsimp only
        by_cases hjm : j = m
        · subst hjm
          rw [getD_set_self _ _ _ _ hmlt]
          exact ihc
        · rw [getD_set_ne _ _ _ _ _ (fun e => hjm e.symm)]
          exact ihset j (by omega) hjp
      · intro j hj
        dsimp only
        have hjm : j ≠ m := by
          rcases hj with hj | hj
          · omega
          · intro e
            rw [e] at hj
            exact hj hpm
        rw [getD_set_ne _ _ _ _ _ (fun e => hjm e.symm)]
        refine ihkeep j ?_
        rcases hj with hj | hj
        · exact Or.inl (by omega)
        · exact Or.inr hj
    · rw [hstep, if_neg hpm]
      refine ⟨ihlen, ?_, ?_, ?_⟩
      · rw [ihc, countP_range_succ]
        have hbeq : (sel.getD m false == p) = false := by
          cases hb : sel.getD m false <;> cases p <;> simp_all
        rw [hbeq]
        simp
      · intro j hj hjp
        have hjm : j ≠ m := by
          intro e
          rw [e] at hjp
          exact hpm hjp
        exact ihset j (by omega) hjp
      · intro j hj
        refine ihkeep j ?_
        rcases hj with hj | hj
        · by_cases hjm : j = m
          · subst hjm
            exact Or.inr hpm
          · exact Or.inl (by omega)
        · exact Or.inr hj

theorem buildPerm_length (sel : List Bool) :
    (buildPerm sel).length = sel.length := by
  unfold buildPerm
  have h1 := (buildPermPass_spec sel true (List.replicate sel.length 0) 0
    (by simp) sel.length (le_refl _)).1
  have h2 := (buildPermPass_spec sel false
    (buildPermPass sel true (List.replicate sel.length 0, 0) sel.length).1
    (buildPermPass sel true (List.replicate sel.length 0, 0) sel.length).2
    (by rw [h1]; simp) sel.length (le_refl _)).1
  rw [h2, h1]
  simp

theorem buildPerm_getD (sel : List Bool) (j : ℕ) (hj : j < sel.length) :
    (buildPerm sel).getD j 0 = permRank sel j := by
  unfold buildPerm
  have hs1 := buildPermPass_spec sel true (List.replicate sel.length 0) 0
    (by simp) sel.length (le_refl _)
  have hs2 := buildPermPass_spec sel false
    (buildPermPass sel true (List.replicate sel.length 0, 0) sel.length).1
    (buildPermPass sel true (List.replicate sel.length 0, 0) sel.length).2
    (by rw [hs1.1]; simp) sel.length (le_refl _)
  have hqt : ∀ m : ℕ, (List.range m).countP (fun t => sel.getD t false == true) =
      (List.range m).countP (fun t => sel.getD t false) := by
    intro m
    apply List.countP_congr
    intro t _
    simp
  have hqf : ∀ m : ℕ, (List.range m).countP (fun t => sel.getD t false == false) =
      (List.range m).countP (fun t => !(sel.getD t false)) := by
    intro m
    apply List.countP_congr
    intro t _
    simp
  cases hflag : sel.getD j false with
  | true =>
    have h1 := hs2.2.2.2 j (Or.inr (by rw [hflag]; simp))
    rw [h1]
    have h2 := hs1.2.2.1 j hj hflag
    rw [h2, hqt]
    unfold permRank
    rw [hflag]
    simp
  | false =>
    have h1 := hs2.2.2.1 j hj hflag
    rw [h1]
    have h2 := hs1.2.1
    rw [h2, hqt, hqf]
    unfold permRank
    rw [hflag]
    simp

theorem permRank_lt (sel : List Bool) (j : ℕ) (hj : j < sel.length) :
    permRank sel j < sel.length := by
  have hsplit : (List.range sel.length).countP (fun t => sel.getD t false) +
      (List.range sel.length).countP (fun t => !(sel.getD t false)) =
      sel.length := by
    have h1 := List.length_eq_countP_add_countP
      (fun t => sel.getD t false) (List.range sel.length)
    rw [List.length_range] at h1
    have h2 : (List.range sel.length).countP
        (fun t => decide ¬(sel.getD t false = true)) =
        (List.range sel.length).countP (fun t => !(sel.getD t false)) := by
      apply List.countP_congr
      intro t _
      simp
    omega
  unfold permRank
  cases hflag : sel.getD j false with
  | true =>
    rw [if_pos (show (true : Bool) = true from rfl)]
    have := countP_range_strict (fun t => sel.getD t false) j sel.length hflag hj
    omega
  | false =>
    rw [if_neg (show ¬((false : Bool) = true) from by simp)]
    have := countP_range_strict (fun t => !(sel.getD t false)) j sel.length
      (by show (!(sel.getD j false)) = true
          rw [hflag]
          decide) hj
    omega

theorem permRank_ne (sel : List Bool) (j1 j2 : ℕ) (h12 : j1 < j2)
    (h2 : j2 < sel.length) :
    permRank sel j1 ≠ permRank sel j2 := by
  have hk : ∀ j, j < sel.length → sel.getD j false = true →
      (List.range j).countP (fun t => sel.getD t false) <
        (List.range sel.length).countP (fun t => sel.getD t false) := by
    intro j hj hf
    exact countP_range_strict _ j sel.length hf hj
  unfold permRank
  cases hf1 : sel.getD j1 false <;> cases hf2 : sel.getD j2 false
  · rw [if_neg (show ¬((false : Bool) = true) from by simp),
      if_neg (show ¬((false : Bool) = true) from by simp)]
    have := countP_range_strict (fun t => !(sel.getD t false)) j1 j2
      (by show (!(sel.getD j1 false)) = true
          rw [hf1]
          decide) h12
    omega
  · rw [if_neg (show ¬((false : Bool) = true) from by simp),
      if_pos (show (true : Bool) = true from rfl)]
    have := hk j2 h2 hf2
    omega
  · rw [if_pos (show (true : Bool) = true from rfl),
      if_neg (show ¬((false : Bool) = true) from by simp)]
    have := hk j1 (by omega) hf1
    omega
  · rw [if_pos (show (true : Bool) = true from rfl),
      if_pos (show (true : Bool) = true from rfl)]
    have := countP_range_strict (fun t => sel.getD t false) j1 j2 hf1 h12
    omega

theorem countP_range_split (sel : List Bool) :
    (List.range sel.length).countP (fun t => sel.getD t false) +
      (List.range sel.length).countP (fun t => !(sel.getD t false)) =
      sel.length := by
  have h1 := List.length_eq_countP_add_countP
    (fun t => sel.getD t false) (List.range sel.length)
  rw [List.length_range] at h1
  have h2 : (List.range sel.length).countP
      (fun t => decide ¬(sel.getD t false = true)) =
      (List.range sel.length).countP (fun t => !(sel.getD t false)) := by
    apply List.countP_congr
    intro t _
    simp
  omega

theorem count_true_eq (sel : List Bool) :
    sel.count true = (List.range sel.length).countP (fun t => sel.getD t false) := by
  induction sel with
  | nil => simp
  | cons b rest ih =>
    rw [List.count_cons]
    rw [show (b :: rest).length = rest.length + 1 from rfl,
      List.range_succ_eq_map]
    rw [List.countP_cons, List.countP_map]
    have h2 : (List.range rest.length).countP
        ((fun t => (b :: rest).getD t false) ∘ Nat.succ) =
        (List.range rest.length).countP (fun t => rest.getD t false) := by
      apply List.countP_congr
      intro t _
      rfl
    rw [h2, ← ih]
    have hb : ((b :: rest).getD 0 false) = b := rfl
    rw [hb]
    cases b <;> simp

theorem buildPerm_nodup (sel : List Bool) : (buildPerm sel).Nodup := by
  rw [List.nodup_iff_injective_get]
  intro i1 i2 hgeq
  by_contra hne
  have hlen := buildPerm_length sel
  have hb1 : (i1 : ℕ) < sel.length := by
    have := i1.2
    omega
  have hb2 : (i2 : ℕ) < sel.length := by
    have := i2.2
    omega
  have hg1 : (buildPerm sel).get i1 = (buildPerm sel).getD (i1 : ℕ) 0 := by
    rw [List.getD_eq_getElem _ _ i1.2]
    rfl
  have hg2 : (buildPerm sel).get i2 = (buildPerm sel).getD (i2 : ℕ) 0 := by
    rw [List.getD_eq_getElem _ _ i2.2]
    rfl
  have hreq : permRank sel (i1 : ℕ) = permRank sel (i2 : ℕ) := by
    rw [← buildPerm_getD sel _ hb1, ← buildPerm_getD sel _ hb2]
    rw [← hg1, ← hg2, hgeq]
  rcases Nat.lt_trichotomy (i1 : ℕ) (i2 : ℕ) with hlt | heq | hgt
  · exact permRank_ne sel _ _ hlt hb2 hreq
  · exact hne (Fin.ext heq)
  · exact permRank_ne sel _ _ hgt hb1 hreq.symm

theorem buildPerm_perm_range (sel : List Bool) :
    (buildPerm sel).Perm (List.range sel.length) := by
  apply List.perm_of_nodup_nodup_toFinset_eq (buildPerm_nodup sel)
    (List.nodup_range _)
  apply Finset.eq_of_subset_of_card_le
  · intro x hx
    rw [List.mem_toFinset] at hx
    rw [List.mem_toFinset, List.mem_range]
    obtain ⟨idx, hidx, hval⟩ := List.mem_iff_getElem.mp hx
    have hidx2 : idx < sel.length := by
      rw [buildPerm_length] at hidx
      exact hidx
    have hxd : x = (buildPerm sel).getD idx 0 := by
      rw [List.getD_eq_getElem _ _ hidx, hval]
    rw [hxd, buildPerm_getD sel idx hidx2]
    exact permRank_lt sel idx hidx2
  · rw [List.toFinset_card_of_nodup (buildPerm_nodup sel),
      List.toFinset_card_of_nodup (List.nodup_range _),
      buildPerm_length, List.length_range]

theorem filter_range_rank (q : ℕ → Bool) (n : ℕ) :
    ∀ m, m < ((List.range n).filter q).length →
      (((List.range n).filter q).getD m 0 < n ∧
        q (((List.range n).filter q).getD m 0) = true ∧
        (List.range (((List.range n).filter q).getD m 0)).countP q = m) := by
  induction n with
  | zero =>
    intro m hm
    simp at hm
  | succ n ih =>
    intro m hm
    have hsplit : (List.range (n + 1)).filter q =
        (List.range n).filter q ++ (if q n then [n] else []) := by
      rw [List.range_succ, List.filter_append]
      congr 1
      cases hq : q n <;> simp [hq]
    by_cases hmlt : m < ((List.range n).filter q).length
    · have hgd : ((List.range (n + 1)).filter q).getD m 0 =
          ((List.range n).filter q).getD m 0 := by
        rw [hsplit]
        exact List.getD_append _ _ _ _ hmlt
      rw [hgd]
      obtain ⟨hb, hq2, hc⟩ := ih m hmlt
      exact ⟨by omega, hq2, hc⟩
    · rw [hsplit, List.length_append] at hm
      cases hq : q n with
      | false =>
        rw [hq] at hm
        simp at hm
        omega
      | true =>
        have hmeq : m = ((List.range n).filter q).length := by
          rw [hq] at hm
          simp at hm
          omega
        have hgd : ((List.range (n + 1)).filter q).getD m 0 = n := by
          rw [hsplit, hq]
          rw [hmeq]
          rw [List.getD_append_right _ _ _ _ (le_refl _)]
          simp
        rw [hgd]
        refine ⟨by omega, hq, ?_⟩
        rw [List.countP_eq_length_filter]
        omega

theorem ordschurTrack_items (select : List Bool) :
    (ordschurTrack select).2 =
      (List.range select.length).filter (fun j => select.getD j false) ++
        (List.range select.length).filter (fun j => !(select.getD j false)) := by
  by_cases hn0 : select.length = 0
  · have hsel : select = [] := List.length_eq_zero.mp hn0
    subst hsel
    rfl
  · have hlen := buildPerm_length select
    obtain ⟨hr1len, hr2len, hsorted, hzip⟩ :=
      ordschurOuter_swap_spec (select.length - 1) 0 (buildPerm select)
        (List.range select.length)
        (by rw [hlen, List.length_range])
        (by rw [hlen]; omega)
        (by rw [hlen]; exact buildPerm_perm_range select)
        (fun m hm => absurd hm (by omega))
    rw [show ordschurTrack select = ordschurOuter swapRot (select.length - 1) 0
      (buildPerm select) (List.range select.length) from rfl]
    have hkk : ((List.range select.length).filter
        (fun j => select.getD j false)).length =
        (List.range select.length).countP (fun j => select.getD j false) :=
      (List.countP_eq_length_filter _ _).symm
    have hkk2 : ((List.range select.length).filter
        (fun j => !(select.getD j false))).length =
        (List.range select.length).countP (fun j => !(select.getD j false)) :=
      (List.countP_eq_length_filter _ _).symm
    have hG : ((List.range select.length).filter (fun j => select.getD j false) ++
        (List.range select.length).filter
          (fun j => !(select.getD j false))).length = select.length := by
      rw [List.length_append, hkk, hkk2]
      exact countP_range_split select
    have hr2 : (ordschurOuter swapRot (select.length - 1) 0 (buildPerm select)
        (List.range select.length)).2.length = select.length := by
      rw [hr2len, List.length_range]
    apply List.ext_getElem (by rw [hr2, hG])
    intro m hm1 hm2
    have hmn : m < select.length := by
      rw [hr2] at hm1
      exact hm1
    -- the sorted permutation entry at position m is m
    have hfst : (ordschurOuter swapRot (select.length - 1) 0 (buildPerm select)
        (List.range select.length)).1.getD m 0 = m :=
      hsorted m (by rw [hlen]; exact hmn)
    -- the zip element at position m is (m, items[m]); it comes from the
    -- initial zip, so items[m] is the source index with rank m
    have hzl : ((ordschurOuter swapRot (select.length - 1) 0 (buildPerm select)
        (List.range select.length)).1.zip
        (ordschurOuter swapRot (select.length - 1) 0 (buildPerm select)
        (List.range select.length)).2).length = select.length := by
      rw [List.length_zip, hr1len, hr2len, hlen, List.length_range]
      simp
    have hmz : m < ((ordschurOuter swapRot (select.length - 1) 0
        (buildPerm select) (List.range select.length)).1.zip
        (ordschurOuter swapRot (select.length - 1) 0 (buildPerm select)
        (List.range select.length)).2).length := by
      rw [hzl]
      exact hmn
    have hel : ((ordschurOuter swapRot (select.length - 1) 0 (buildPerm select)
        (List.range select.length)).1.zip
        (ordschurOuter swapRot (select.length - 1) 0 (buildPerm select)
        (List.range select.length)).2)[m] =
        (m, (ordschurOuter swapRot (select.length - 1) 0 (buildPerm select)
          (List.range select.length)).2[m]) := by
      rw [List.getElem_zip]
      congr 1
      rw [← List.getD_eq_getElem _ 0 (by rw [hr1len, hlen]; exact hmn)]
      exact hfst
    have hmem : (m, (ordschurOuter swapRot (select.length - 1) 0
        (buildPerm select) (List.range select.length)).2[m]) ∈
        (buildPerm select).zip (List.range select.length) := by
      rw [← hel]
      exact hzip.mem_iff.mp (List.getElem_mem hmz)
    obtain ⟨idx, hidxlt, hidxeq⟩ := List.mem_iff_getElem.mp hmem
    have hidxn : idx < select.length := by
      rw [List.length_zip, hlen, List.length_range] at hidxlt
      simpa using hidxlt
    have hidx2 : ((buildPerm select).zip (List.range select.length))[idx] =
        ((buildPerm select).getD idx 0, idx) := by
      rw [List.getElem_zip]
      congr 1
      · rw [← List.getD_eq_getElem _ 0 (by rw [hlen]; exact hidxn)]
      · simp
    rw [hidx2] at hidxeq
    have hrank_idx : permRank select idx = m := by
      rw [← buildPerm_getD select idx hidxn]
      exact (congrArg Prod.fst hidxeq)
    have hitems : (ordschurOuter swapRot (select.length - 1) 0 (buildPerm select)
        (List.range select.length)).2[m] = idx :=
      (congrArg Prod.snd hidxeq).symm
    -- now identify idx with the m-th entry of the filter concatenation
    have hGval : ((List.range select.length).filter (fun j => select.getD j false) ++
        (List.range select.length).filter (fun j => !(select.getD j false))).getD m 0 <
          select.length ∧
        permRank select (((List.range select.length).filter
            (fun j => select.getD j false) ++
          (List.range select.length).filter
            (fun j => !(select.getD j false))).getD m 0) = m := by
      by_cases hmk : m < ((List.range select.length).filter
          (fun j => select.getD j false)).length
      · have hgd : ((List.range select.length).filter
            (fun j => select.getD j false) ++
            (List.range select.length).filter
              (fun j => !(select.getD j false))).getD m 0 =
            ((List.range select.length).filter
              (fun j => select.getD j false)).getD m 0 :=
          List.getD_append _ _ _ _ hmk
        obtain ⟨hb, hq2, hc⟩ := filter_range_rank
          (fun j => select.getD j false) select.length m hmk
        refine ⟨by rw [hgd]; exact hb, ?_⟩
        rw [hgd]
        unfold permRank
        rw [if_pos hq2, hc]
      · have hmk2 : ((List.range select.length).filter
            (fun j => select.getD j false)).length ≤ m := by omega
        have hgd : ((List.range select.length).filter
            (fun j => select.getD j false) ++
            (List.range select.length).filter
              (fun j => !(select.getD j false))).getD m 0 =
            ((List.range select.length).filter
              (fun j => !(select.getD j false))).getD
              (m - ((List.range select.length).filter
                (fun j => select.getD j false)).length) 0 :=
          List.getD_append_right _ _ _ _ hmk2
        have hmk3 : m - ((List.range select.length).filter
            (fun j => select.getD j false)).length <
            ((List.range select.length).filter
              (fun j => !(select.getD j false))).length := by
          rw [List.length_append] at hm2
          omega
        obtain ⟨hb, hq2, hc⟩ := filter_range_rank
          (fun j => !(select.getD j false)) select.length _ hmk3
        refine ⟨by rw [hgd]; exact hb, ?_⟩
        rw [hgd]
        unfold permRank
        have hq3 : select.getD (((List.range select.length).filter
            (fun j => !(select.getD j false))).getD
            (m - ((List.range select.length).filter
              (fun j => select.getD j false)).length) 0) false = false := by
          have := hq2
          cases hfl : select.getD (((List.range select.length).filter
              (fun j => !(select.getD j false))).getD
              (m - ((List.range select.length).filter
                (fun j => select.getD j false)).length) 0) false
          · rfl
          · rw [hfl] at this
            simp at this
        rw [if_neg (by rw [hq3]; simp)]
        rw [hc, ← hkk]
        omega
    -- conclude by injectivity of the rank
    have hfinal : idx = ((List.range select.length).filter
        (fun j => select.getD j false) ++
        (List.range select.length).filter
          (fun j => !(select.getD j false))).getD m 0 := by
      by_contra hne
      rcases Nat.lt_trichotomy idx (((List.range select.length).filter
          (fun j => select.getD j false) ++
          (List.range select.length).filter
            (fun j => !(select.getD j false))).getD m 0) with hlt | heq | hgt
      · exact permRank_ne select _ _ hlt hGval.1
          (hrank_idx.trans hGval.2.symm)
      · exact hne heq
      · exact permRank_ne select _ _ hgt hidxn
          (hGval.2.trans hrank_idx.symm)
    rw [hitems, hfinal]
    rw [List.getD_eq_getElem _ 0 (by rw [hG]; exact hmn)]

/-- C8: the permutation built by `ordschur` assigns kept positions the
ranks `0..k-1` in their original order (the number of kept positions
before them) and discarded positions the subsequent ranks; realizing it by
the adjacent-transposition bubble pass arranges the diagonal positions as:
all kept positions in increasing original order, then all discarded
positions in increasing original order. -/
theorem claim_C8_ordschur (select : List Bool) :
    ((buildPerm select).length = select.length) ∧
    (∀ j, j < select.length → (buildPerm select).getD j 0 = permRank select j) ∧
    (∀ j, j < select.length → select.getD j false = true →
      (buildPerm select).getD j 0 < select.count true) ∧
    (∀ j, j < select.length → select.getD j false = false →
      select.count true ≤ (buildPerm select).getD j 0 ∧
        (buildPerm select).getD j 0 < select.length) ∧
    ((ordschurTrack select).2 =
      (List.range select.length).filter (fun j => select.getD j false) ++
        (List.range select.length).filter (fun j => !(select.getD j false))) := by
  have hcnt := count_true_eq select
  refine ⟨buildPerm_length select, fun j hj => buildPerm_getD select j hj,
    ?_, ?_, ordschurTrack_items select⟩
  · intro j hj hf
    rw [buildPerm_getD select j hj]
    unfold permRank
    rw [if_pos hf, hcnt]
    exact countP_range_strict _ j select.length hf hj
  · intro j hj hf
    have hlt := permRank_lt select j hj
    rw [buildPerm_getD select j hj]
    refine ⟨?_, hlt⟩
    unfold permRank
    rw [if_neg (by rw [hf]; simp), hcnt]
    omega

/-- C8 witness: a concrete reordering with keep-mask
`[false, true, true, false]`: the kept positions 1 and 2 land first, the
discarded positions 0 and 3 follow. -/
theorem claim_C8_witness :
    (ordschurTrack [false, true, true, false]).2 = [1, 2, 0, 3] := by
  have h := (claim_C8_ordschur [false, true, true, false]).2.2.2.2
  simpa using h

/-!
## The solver state, construction, `init` and `compute`
-/

/-- The computation status (`Util/CompInfo.h`, external to `src/`). -/
inductive CompInfo where
  | NotComputed
  | Successful
  | NotConverging
deriving DecidableEq

/-- The state of the external Krylov factorization engine as the
orchestrator observes it: the Hessenberg matrix `H` ((ncv+1) × ncv) and
the basis matrix `V` (n × ncv), read through `matrix_H()` / `matrix_V()`
and replaced through `swap_H` / `swap_V`. -/
structure Fac where
  H : Mat
  V : Mat
deriving DecidableEq

/-- The solver members mutated by `init` and `compute` (source lines
81-95): the factorization, the two counters, the result buffers and the
status. -/
structure CompState where
  fac : Fac
  nmatop : ℕ
  niter : ℕ
  evals : List ℚ
  evecs : Mat
  evalsConv : List Bool
  info : CompInfo
deriving DecidableEq

/-- The outcome of one `factorize_from` call of the external engine: the
stop flag it returns, the engine state afterwards, and the number of
operator applications it adds to the counter passed by reference. -/
structure FacStep where
  stop : Bool
  fac : Fac
  ops : ℕ

/-- The external collaborators of `compute`, bundled: the factorization
engine (`KrylovSchur`), the dense kernels (`Eigen::RealSchur`,
`Eigen::EigenSolver`), the complex modulus used by `.cwiseAbs()`/`.abs()`,
`pow(eps, 2/3)`, the `SortEigenvalue` comparators of
`Util/SelectionRule.h` and `Eigen::JacobiRotation::makeGivens`. -/
structure Kernels where
  facStep : Fac → ℕ → ℕ → FacStep
  schur : Mat → Mat × Mat
  eigVals : Mat → CVec
  eigVecs : Mat → CMat
  cabs : Cplx → ℚ
  eps23 : ℚ
  sorter : SortRule → CVec → List ℕ
  mkGivens : ℚ → ℚ → ℚ × ℚ

/-- Source lines 417-419: `select.setConstant(false);
select(ind_sel.head(nev_new)).setConstant(true)`. -/
def mkSelect (ncv : ℕ) (ind : List ℕ) (nev_new : ℕ) : List Bool :=
  (ind.take nev_new).foldl (fun sel j => sel.set j true)
    (List.replicate ncv false)

/-- `U.leftCols(c)` for a complex matrix. -/
def leftColsC (M : CMat) (c : ℕ) : CMat := M.map (fun row => row.take c)

/-- Source lines 447-448: `H.topLeftCorner(k, k) = T.topLeftCorner(k, k);
H.block(k, 0, 1, k) = H.bottomRows(1) * Xk` — the bottom row is read
after the top-left replacement, from the same matrix `H`. -/
def contractH (H T2 : Mat) (k : ℕ) (Xk : Mat) : Mat :=
  let H1 := (List.range H.length).map (fun r =>
    if r < k then ((T2.getD r []).take k) ++ ((H.getD r []).drop k)
    else H.getD r [])
  let newRow := rowTimesMat (lastRowM H1) Xk
  (List.range H1.length).map (fun r =>
    if r = k then newRow ++ ((H1.getD r []).drop k) else H1.getD r [])

/-- Source line 451: `V.leftCols(k) = V * Xk`. -/
def contractV (V : Mat) (Xk : Mat) (k : ℕ) : Mat :=
  V.map (fun row => (rowTimesMat row Xk) ++ row.drop k)

/-- The control-flow outcomes of the `for` loop of `compute` (source
lines 358-457): the breakdown early return (lines 363-368, carrying the
state with the result buffers already cleared), the propagation of the
`std::invalid_argument` thrown by `which_eigenvalues` (carrying the state
at the moment of the throw), or falling through to the export code
(`break` at line 403, or the loop condition failing), carrying the
surviving loop locals. -/
inductive LoopOut where
  | breakdown (s : CompState)
  | badRule (s : CompState)
  | finished (s : CompState) (d : CVec) (ind : List ℕ) (U : CMat)
      (nconv : ℕ) (iused : ℕ)
deriving DecidableEq

/-- The `for` loop of `compute` (source lines 358-457).  `fuel` is the
number of remaining iterations (`maxit - i`; `compute` enters with
`fuel = maxit`, `i = 0`), so `fuel = 0` is the `i < maxit` loop-condition
exit.  The in-loop cap test `i == maxit` of line 400 is kept verbatim —
it can never be true inside the loop, exactly as in the source. -/
def computeLoop (K : Kernels) (nev ncv : ℕ) (selection : SortRule)
    (tol : ℚ) (maxit : ℕ) :
    ℕ → ℕ → ℕ → CVec → List ℕ → CMat → ℕ → CompState → LoopOut
  | 0, i, _, d, ind, U, nconv, s => LoopOut.finished s d ind U nconv (i + 1)
  | fuel + 1, i, sizeV, _, _, _, nconv, s =>
    let fs := K.facStep s.fac sizeV ncv
    let s1 : CompState := { s with fac := fs.fac, nmatop := s.nmatop + fs.ops }
    if fs.stop then LoopOut.breakdown { s1 with evals := [], evecs := [] }
    else
      let H := s1.fac.H
      let XT := K.schur (topLeftM H ncv ncv)
      let X := XT.1
      let T := XT.2
      let d1 := K.eigVals T
      let U1 := cmatMul (matC X) (K.eigVecs T)
      let res := (rowTimesCMat (lastRowM H) U1).map K.cabs
      match which_eigenvalues K.sorter ncv d1 selection with
      | Except.error _ => LoopOut.badRule s1
      | Except.ok ind1 =>
        let d2 := permuteL ind1 d1
        let res1 := permuteLQ ind1 res
        let nc := num_converged K.cabs K.eps23 nev tol d2 res1
        let s2 : CompState := { s1 with evalsConv := nc.1 }
        if nev ≤ nc.2 ∨ i = maxit then LoopOut.finished s2 d2 ind1 U1 nc.2 (i + 1)
        else
          let nevNew := nev_adjusted nev ncv nc.2 nconv
          let d3 := diagC T
          match which_eigenvalues K.sorter ncv d3 selection with
          | Except.error _ => LoopOut.badRule s2
          | Except.ok ind2 =>
            let sel0 := mkSelect ncv ind2 nevNew
            let pr := conjPairPass T ncv ind2 sel0 nevNew
            let XT2 := ordschur K.mkGivens X T pr.1
            let Xk := leftColsM XT2.1 pr.2
            let H2 := contractH H XT2.2 pr.2 Xk
            let V2 := contractV s2.fac.V Xk pr.2
            let s3 : CompState := { s2 with fac := ⟨H2, V2⟩ }
            computeLoop K nev ncv selection tol maxit fuel (i + 1) pr.2 d3
              ind2 U1 nc.2 s3

/-- `compute` (source lines 347-473), from the pre-call state to the
post-call state and the returned converged count; `Except.error ()`
models the propagated `std::invalid_argument`.  The loop locals `d`,
`ind`, `U` enter default-initialized (`d` and `U` are uninitialized Eigen
buffers in the source, reachable by the export code only when
`maxit = 0`; they are modelled zero-filled, `ind` is value-initialized to
zeros by `std::vector`).  The `sorting` argument is accepted and, as in
the source body, never used. -/
def compute (K : Kernels) (n nev ncv : ℕ) (selection : SortRule)
    (sorting : SortRule) (maxit : ℕ) (tol : ℚ) (s : CompState) :
    CompState × Except Unit ℕ :=
  match computeLoop K nev ncv selection tol maxit maxit 0 0
      (List.replicate ncv (0, 0)) (List.replicate ncv 0)
      (List.replicate ncv (List.replicate ncv (0, 0))) 0 s with
  | LoopOut.breakdown s1 => (s1, Except.ok 0)
  | LoopOut.badRule s1 => (s1, Except.error ())
  | LoopOut.finished s1 d ind U nconv iused =>
    let evals := (d.take nev).map Prod.fst
    let U2 := permuteCols ind U
    let evecs := cmatRe (cmatMul (matC s1.fac.V) (leftColsC U2 nev))
    let s2 : CompState := { s1 with
      evals := evals
      evecs := evecs
      niter := s1.niter + iused
      info := if nev ≤ nconv then CompInfo.Successful
        else CompInfo.NotConverging }
    (s2, Except.ok (min nev nconv))

/-- `init` (source lines 292-309): the result buffers are resized
(`m_evals` to `ncv`, `m_evecs` to `ncv × nev`, `m_evals_conv` to `nev`)
and zeroed, both counters are set to zero, the factorization is seeded,
and `m_info` is not touched.  Both overloads (explicit residual, and the
fixed-seed random residual built by the external `SimpleRandom`) funnel
through this path.  `facInit` stands for the engine state seeded by
`m_fac.init(v0, m_nmatop)`.  Modelled from the spec: `KrylovSchur::init`
(LinAlg/KrylovSchur.h, not under src/) is the engine-contract call
`init(initialResidual, opCounterRef)` of section 6, which seeds the
factorization; the spec gives it no operator-count effect, so the zeroed
counter is left at zero. -/
def init (facInit : Fac) (nev ncv : ℕ) (s : CompState) : CompState :=
  { fac := facInit
    nmatop := 0
    niter := 0
    evals := List.replicate ncv 0
    evecs := List.replicate ncv (List.replicate nev 0)
    evalsConv := List.replicate nev false
    info := s.info }

/-- `info()` (source line 479). -/
def infoOf (s : CompState) : CompInfo := s.info

/-- `num_iterations()` (source line 484). -/
def num_iterations (s : CompState) : ℕ := s.niter

/-- `num_operations()` (source line 489). -/
def num_operations (s : CompState) : ℕ := s.nmatop

/-- `eigenvalues()` (source lines 498-501). -/
def eigenvalues (s : CompState) : List ℚ := s.evals

/-- `eigenvectors(nvec)` (source lines 512-519): the returned matrix is
`m_fac.matrix_V().leftCols(nvec)` with `nvec` clamped to
`m_evals_conv.count()`.  The local `Matrix res(m_n, nvec)` of line 516 is
declared and never used, and the stored `m_evecs` is never read. -/
def eigenvectors (s : CompState) (nvec : ℕ) : Mat :=
  let nconv := s.evalsConv.count true
  let nvec2 := min nvec nconv
  leftColsM s.fac.V nvec2

/-- `eigenvectors()` (source lines 524-527): defaults to `m_nev`. -/
def eigenvectorsAll (nev : ℕ) (s : CompState) : Mat := eigenvectors s nev

/-- The members set by the constructor initializer lists that the
validation theorems inspect. -/
structure SolverInit where
  ncv : ℤ
  nmatop : ℤ
  niter : ℤ
  info : CompInfo
deriving DecidableEq

/-- The constructors (source lines 240-274): `m_ncv` is clamped to `n` in
the initializer list (`ncv > m_n ? m_n : ncv`); then both overloads throw
`std::invalid_argument` when `nev < 1 || nev > m_n - 1` and when
`ncv <= nev || ncv > m_n` (checked against the unclamped `ncv`);
otherwise the object is left with `m_nmatop = 0`, `m_niter = 0`,
`m_info = CompInfo::NotComputed`. -/
def mkKrylovSchurGEigsBase (n nev ncv : ℤ) : Except Unit SolverInit :=
  let ncvClamped := if ncv > n then n else ncv
  if nev < 1 ∨ nev > n - 1 then Except.error ()
  else if ncv ≤ nev ∨ ncv > n then Except.error ()
  else Except.ok ⟨ncvClamped, 0, 0, CompInfo.NotComputed⟩

/-- C9: construction fails with an invalid-argument error exactly when
`nev < 1`, `nev > n - 1`, `ncv ≤ nev` or `ncv > n`; otherwise it succeeds
with status `NotComputed` and zero iteration and operator-application
counters. -/
theorem claim_C9_constructor (n nev ncv : ℤ) :
    ((∃ s, mkKrylovSchurGEigsBase n nev ncv = Except.ok s) ↔
      ¬(nev < 1 ∨ n - 1 < nev ∨ ncv ≤ nev ∨ n < ncv)) ∧
    (∀ s, mkKrylovSchurGEigsBase n nev ncv = Except.ok s →
      s.info = CompInfo.NotComputed ∧ s.niter = 0 ∧ s.nmatop = 0) := by
  unfold mkKrylovSchurGEigsBase
  dsimp only
  constructor
  · constructor
    · rintro ⟨s, hs⟩
      split_ifs at hs with h1 h2 h3 <;>
        (push_neg at h1 h2
         intro hcon
         rcases hcon with h | h | h | h <;> omega)
    · intro hno
      push_neg at hno
      rw [if_neg (by push_neg; omega), if_neg (by push_neg; omega)]
      exact ⟨_, rfl⟩
  · intro s hs
    split_ifs at hs with h1 h2 h3 <;>
      (have hval := (Except.ok.inj hs).symm
       rw [hval]
       exact ⟨rfl, rfl, rfl⟩)

/-- C9 witness: `n = 5`, `nev = 2`, `ncv = 4` validates and yields the
fresh state. -/
theorem claim_C9_witness :
    ¬((2 : ℤ) < 1 ∨ (5 : ℤ) - 1 < 2 ∨ (4 : ℤ) ≤ 2 ∨ (5 : ℤ) < 4) ∧
    (∃ s, mkKrylovSchurGEigsBase 5 2 4 = Except.ok s) :=
  ⟨by decide, (claim_C9_constructor 5 2 4).1.mpr (by decide)⟩

/-- C10: `init` resets both counters to zero, zeroes the stored
eigenvalue vector, eigenvector matrix and convergence-flag vector, and
leaves the computation status unchanged — so a status of `Successful` or
`NotConverging` set by an earlier `compute` call is not restored to
`NotComputed`, and `info()` still reports the previous run's status. -/
theorem claim_C10_init_frame (facInit : Fac) (nev ncv : ℕ) (s : CompState) :
    (init facInit nev ncv s).niter = 0 ∧
    (init facInit nev ncv s).nmatop = 0 ∧
    (init facInit nev ncv s).evals = List.replicate ncv 0 ∧
    (init facInit nev ncv s).evecs = List.replicate ncv (List.replicate nev 0) ∧
    (init facInit nev ncv s).evalsConv = List.replicate nev false ∧
    infoOf (init facInit nev ncv s) = infoOf s :=
  ⟨rfl, rfl, rfl, rfl, rfl, rfl⟩

theorem computeLoop_breakdown (K : Kernels) (nev ncv : ℕ)
    (selection : SortRule) (tol : ℚ) (maxit : ℕ) :
    ∀ (fuel i sizeV : ℕ) (d : CVec) (ind : List ℕ) (U : CMat) (nconv : ℕ)
      (s s1 : CompState),
      computeLoop K nev ncv selection tol maxit fuel i sizeV d ind U nconv s =
        LoopOut.breakdown s1 →
      s1.evals = [] ∧ s1.evecs = [] ∧ s1.info = s.info := by
  intro fuel
  induction fuel with
  | zero =>
    intro i sizeV d ind U nconv s s1 h
    simp [computeLoop] at h
  | succ fuel ih =>
    intro i sizeV d ind U nconv s s1 h
    simp only [computeLoop] at h
    split at h
    · -- breakdown this iteration
      injection h with h2
      subst h2
      exact ⟨rfl, rfl, rfl⟩
    · split at h
      · -- invalid rule this iteration
        simp at h
      · split at h
        · -- converged / cap break
          simp at h
        · split at h
          · -- invalid rule at the second sort
            simp at h
          · -- restart and recurse
            have hf := ih _ _ _ _ _ _ _ _ h
            exact ⟨hf.1, hf.2.1, hf.2.2.trans rfl⟩

/-- C2 (amended): whenever the factorization engine reports it cannot
extend the basis — the loop exits through the early return of source
lines 363-368 — `compute` stops immediately without retrying: it empties
the stored eigenvalue vector and eigenvector matrix, returns 0 converged,
raises no error, and leaves the status unchanged (so `NotComputed`
exactly when no earlier `compute` call had completed). -/
theorem claim_C2_breakdown (K : Kernels) (n nev ncv : ℕ)
    (selection sorting : SortRule) (maxit : ℕ) (tol : ℚ) (s s1 : CompState)
    (h : computeLoop K nev ncv selection tol maxit maxit 0 0
      (List.replicate ncv (0, 0)) (List.replicate ncv 0)
      (List.replicate ncv (List.replicate ncv (0, 0))) 0 s =
      LoopOut.breakdown s1) :
    compute K n nev ncv selection sorting maxit tol s = (s1, Except.ok 0) ∧
    s1.evals = [] ∧ s1.evecs = [] ∧ s1.info = s.info := by
  have hfacts := computeLoop_breakdown K nev ncv selection tol maxit maxit 0 0
    _ _ _ 0 s s1 h
  refine ⟨?_, hfacts⟩
  unfold compute
  rw [h]

/-- C3 (amended): with a selection rule outside the six supported ones,
if the first basis extension does not break down, `compute` raises the
invalid-argument error during the first iteration: at the moment the
error is raised the factorization state and the operator-application
counter have already been updated by the extension, while the iteration
counter, the eigenvalue and eigenvector buffers and the convergence
flags are unchanged.  (If the extension breaks down first, `compute`
instead returns 0 without raising; see the C2 theorem.) -/
theorem claim_C3_invalid_rule (K : Kernels) (n nev ncv : ℕ)
    (selection sorting : SortRule) (maxit : ℕ) (tol : ℚ) (s : CompState)
    (hrule : supportedRule selection = false)
    (hstop : (K.facStep s.fac 0 ncv).stop = false)
    (hmax : 1 ≤ maxit) :
    compute K n nev ncv selection sorting maxit tol s =
      ({ s with
          fac := (K.facStep s.fac 0 ncv).fac
          nmatop := s.nmatop + (K.facStep s.fac 0 ncv).ops },
        Except.error ()) ∧
    (compute K n nev ncv selection sorting maxit tol s).1.niter = s.niter ∧
    (compute K n nev ncv selection sorting maxit tol s).1.evals = s.evals ∧
    (compute K n nev ncv selection sorting maxit tol s).1.evecs = s.evecs ∧
    (compute K n nev ncv selection sorting maxit tol s).1.evalsConv =
      s.evalsConv := by
  obtain ⟨fuel, rfl⟩ : ∃ f, maxit = f + 1 := ⟨maxit - 1, by omega⟩
  have hloop : computeLoop K nev ncv selection tol (fuel + 1) (fuel + 1) 0 0
      (List.replicate ncv (0, 0)) (List.replicate ncv 0)
      (List.replicate ncv (List.replicate ncv (0, 0))) 0 s =
      LoopOut.badRule { s with
        fac := (K.facStep s.fac 0 ncv).fac
        nmatop := s.nmatop + (K.facStep s.fac 0 ncv).ops } := by
    simp only [computeLoop, hstop]
    rw [if_neg (by simp)]
    rw [which_eigenvalues_error K.sorter ncv _ selection hrule]
  have hmain : compute K n nev ncv selection sorting (fuel + 1) tol s =
      ({ s with
          fac := (K.facStep s.fac 0 ncv).fac
          nmatop := s.nmatop + (K.facStep s.fac 0 ncv).ops },
        Except.error ()) := by
    unfold compute
    rw [hloop]
  refine ⟨hmain, ?_, ?_, ?_, ?_⟩ <;> rw [hmain]

/-!
## Concrete runs for C1, C2 and C3
-/

/-- C2 fixture: the seed factorization state handed to the first call. -/
def c2FacSeed : Fac := ⟨[[0]], [[0]]⟩

/-- C2 fixture: the factorization after one `factorize_from` extension:
`H` is 3×2 (upper Hessenberg with zero last row), `V` the 2×2 identity. -/
def c2Fac1 : Fac := ⟨[[1, 3], [0, 5], [0, 0]], [[1, 0], [0, 1]]⟩

/-- C2 fixture: a kernel bundle whose engine extends the seed state once
and reports breakdown on any other state. -/
def c2K : Kernels :=
  { facStep := fun fac _ _ =>
      if fac = c2FacSeed then ⟨false, c2Fac1, 1⟩ else ⟨true, fac, 0⟩
    schur := fun M => ([[1, 0], [0, 1]], M)
    eigVals := diagC
    eigVecs := fun _ => [[(1, 0), (3, 0)], [(0, 0), (4, 0)]]
    cabs := fun z => |z.1| + |z.2|
    eps23 := 1 / 1000
    sorter := fun _ _ => [1, 0]
    mkGivens := fun _ _ => (1, 0) }

/-- C2 fixture: the fresh pre-compute state (status `NotComputed`). -/
def c2s0 : CompState :=
  ⟨c2FacSeed, 0, 0, [0, 0], [[0], [0]], [false], CompInfo.NotComputed⟩

/-- C2 fixture: the state after the first (converging) `compute` call. -/
def c2s1 : CompState :=
  (compute c2K 2 1 2 SortRule.LargestMagn SortRule.LargestAlge 1 (1 / 10)
    c2s0).1

/-- C2 fixture: the state produced by the breakdown of the second call. -/
def c2sBroken : CompState :=
  ⟨c2Fac1, 1, 1, [], [], [true], CompInfo.Successful⟩

/-- C3 fixture: an engine that always extends, replacing the basis and
adding one operator application. -/
def c3K : Kernels :=
  { facStep := fun _ _ _ => ⟨false, ⟨[[2], [4]], [[3, 4]]⟩, 1⟩
    schur := fun M => (M, M)
    eigVals := diagC
    eigVecs := fun _ => [[(1, 0)]]
    cabs := fun z => |z.1| + |z.2|
    eps23 := 1 / 1000
    sorter := fun _ v => List.range v.length
    mkGivens := fun _ _ => (1, 0) }

/-- C3 fixture: a pre-call state with nonzero counters and buffers. -/
def c3s : CompState :=
  ⟨⟨[[2]], [[3]]⟩, 5, 7, [9], [[9]], [true], CompInfo.NotComputed⟩

/-- C1 fixture: the factorization of the converging run. -/
def c1FacA : Fac := ⟨[[1, 3], [0, 5], [0, 0]], [[1, 0], [0, 1]]⟩

/-- C1 fixture: kernels for the converging run — the last row of `H` is
zero, so every residual vanishes and the first iteration converges. -/
def c1KA : Kernels :=
  { facStep := fun _ _ _ => ⟨false, c1FacA, 1⟩
    schur := fun M => ([[1, 0], [0, 1]], M)
    eigVals := diagC
    eigVecs := fun _ => [[(1, 0), (3, 0)], [(0, 0), (4, 0)]]
    cabs := fun z => |z.1| + |z.2|
    eps23 := 1 / 1000
    sorter := fun _ _ => [1, 0]
    mkGivens := fun _ _ => (1, 0) }

/-- C1 fixture: the fresh pre-compute state of both runs. -/
def c1s0 : CompState :=
  ⟨⟨[[0]], [[0]]⟩, 0, 0, [0, 0], [[0], [0]], [false], CompInfo.NotComputed⟩

/-- C1 fixture: the post-`compute` state of the converging run. -/
def c1sA : CompState :=
  (compute c1KA 2 1 2 SortRule.LargestMagn SortRule.LargestAlge 1 (1 / 10)
    c1s0).1

/-- C1 fixture: the factorization of the cap-exhaustion run — same `H`
but a nonzero last row, so the wanted Ritz value has residual 4 and
nothing converges within `maxit = 1`. -/
def c1FacB : Fac := ⟨[[1, 3], [0, 5], [0, 1]], [[1, 0], [0, 1]]⟩

/-- C1 fixture: kernels for the cap-exhaustion run. -/
def c1KB : Kernels :=
  { facStep := fun _ _ _ => ⟨false, c1FacB, 1⟩
    schur := fun M => ([[1, 0], [0, 1]], M)
    eigVals := diagC
    eigVecs := fun _ => [[(1, 0), (3, 0)], [(0, 0), (4, 0)]]
    cabs := fun z => |z.1| + |z.2|
    eps23 := 1 / 1000
    sorter := fun _ _ => [1, 0]
    mkGivens := fun _ _ => (3 / 5, 4 / 5) }

/-- C1 fixture: the post-`compute` state of the cap-exhaustion run. -/
def c1sB : CompState :=
  (compute c1KB 2 1 2 SortRule.LargestMagn SortRule.LargestAlge 1 (1 / 10)
    c1s0).1

/-- C2 counterexample: a first `compute` call converges and sets the
status to `Successful`; a second call on the same solver hits a breakdown
immediately, clears the result buffers and returns 0 — but the status
stays `Successful`, not `NotComputed` as the claim states: the breakdown
path (source lines 363-368) never writes `m_info`. -/
theorem claim_C2_counterexample :
    infoOf c2s0 = CompInfo.NotComputed ∧
    c2s1 = ⟨c2Fac1, 1, 1, [5], [[3], [4]], [true], CompInfo.Successful⟩ ∧
    compute c2K 2 1 2 SortRule.LargestMagn SortRule.LargestAlge 1 (1 / 10)
      c2s1 = (c2sBroken, Except.ok 0) ∧
    c2sBroken.evals = [] ∧ c2sBroken.evecs = [] ∧
    infoOf c2sBroken = CompInfo.Successful :=
  ⟨rfl, by with_unfolding_all decide, by with_unfolding_all rfl, rfl, rfl,
   rfl⟩

/-- C2 witness: the amended theorem applied to the concrete breakdown
run. -/
theorem claim_C2_witness :
    (computeLoop c2K 1 2 SortRule.LargestMagn (1 / 10) 1 1 0 0
      (List.replicate 2 (0, 0)) (List.replicate 2 0)
      (List.replicate 2 (List.replicate 2 (0, 0))) 0 c2s1 =
      LoopOut.breakdown c2sBroken) ∧
    (compute c2K 2 1 2 SortRule.LargestMagn SortRule.LargestAlge 1 (1 / 10)
        c2s1 = (c2sBroken, Except.ok 0) ∧
      c2sBroken.evals = [] ∧ c2sBroken.evecs = [] ∧
      c2sBroken.info = c2s1.info) :=
  ⟨by with_unfolding_all decide,
   claim_C2_breakdown c2K 2 1 2 SortRule.LargestMagn SortRule.LargestAlge 1
     (1 / 10) c2s1 c2sBroken (by with_unfolding_all decide)⟩

/-- C3 counterexample: calling `compute` with the unsupported rule
`LargestAlge` raises the invalid-argument error, but the solver state has
been mutated at the moment of the throw: `factorize_from` already
replaced the factorization and advanced the operator-application counter
from 5 to 6 (source line 361 runs before the `which_eigenvalues` call of
line 391), contradicting the claim that no state changes before the
error. -/
theorem claim_C3_counterexample :
    supportedRule SortRule.LargestAlge = false ∧
    (compute c3K 1 1 1 SortRule.LargestAlge SortRule.LargestAlge 1 0
      c3s).2 = Except.error () ∧
    (compute c3K 1 1 1 SortRule.LargestAlge SortRule.LargestAlge 1 0
      c3s).1.nmatop = 6 ∧
    c3s.nmatop = 5 ∧
    (compute c3K 1 1 1 SortRule.LargestAlge SortRule.LargestAlge 1 0
      c3s).1.fac ≠ c3s.fac :=
  ⟨rfl, rfl, rfl, rfl, by decide⟩

/-- C3 witness: the amended theorem at the concrete kernel and state. -/
theorem claim_C3_witness :
    (supportedRule SortRule.LargestAlge = false ∧
      (c3K.facStep c3s.fac 0 1).stop = false ∧ 1 ≤ 1) ∧
    (compute c3K 1 1 1 SortRule.LargestAlge SortRule.LargestMagn 1 0 c3s =
      ({ c3s with
          fac := (c3K.facStep c3s.fac 0 1).fac
          nmatop := c3s.nmatop + (c3K.facStep c3s.fac 0 1).ops },
        Except.error ()) ∧
      (compute c3K 1 1 1 SortRule.LargestAlge SortRule.LargestMagn 1 0
        c3s).1.niter = c3s.niter ∧
      (compute c3K 1 1 1 SortRule.LargestAlge SortRule.LargestMagn 1 0
        c3s).1.evals = c3s.evals ∧
      (compute c3K 1 1 1 SortRule.LargestAlge SortRule.LargestMagn 1 0
        c3s).1.evecs = c3s.evecs ∧
      (compute c3K 1 1 1 SortRule.LargestAlge SortRule.LargestMagn 1 0
        c3s).1.evalsConv = c3s.evalsConv) :=
  ⟨⟨rfl, rfl, le_refl 1⟩,
   claim_C3_invalid_rule c3K 1 1 1 SortRule.LargestAlge SortRule.LargestMagn
     1 0 c3s rfl rfl (le_refl 1)⟩

/-- C1: the claim fails on the code as written, on both exit paths.
Converging run (`c1sA`): the stored eigenvector matrix `m_evecs` equals
the claimed product `Re(V · U.leftCols(nev))`, but `eigenvectors()`
(source lines 512-519) ignores it and returns
`m_fac.matrix_V().leftCols(nvec)` instead — here the identity columns
`[[1], [0]]` rather than the computed `[[3], [4]]`.  Cap-exhaustion run
(`c1sB`): the in-loop cap test `i == maxit` (line 400) is unreachable
because the loop condition is `i < maxit`, so on cap exhaustion the loop
ends by its condition and the export code (lines 459-460) reads the
unsorted `d = T.diagonal()` from the restart half of the last iteration:
the reported eigenvalue is 1, while the sort order established by the
selection rule puts 5 first. -/
theorem claim_C1_export_bug :
    (infoOf c1sA = CompInfo.Successful ∧
      eigenvalues c1sA = [5] ∧
      c1sA.evecs = [[3], [4]] ∧
      eigenvectorsAll 1 c1sA = [[1], [0]] ∧
      eigenvectorsAll 1 c1sA ≠ c1sA.evecs) ∧
    (infoOf c1sB = CompInfo.NotConverging ∧
      eigenvalues c1sB = [1] ∧
      ((permuteL
          (c1KB.sorter SortRule.LargestMagn (diagC [[1, 3], [0, 5]]))
          (diagC [[1, 3], [0, 5]])).take 1).map Prod.fst = [5] ∧
      eigenvalues c1sB ≠ [5]) :=
  ⟨⟨by with_unfolding_all decide, by with_unfolding_all decide,
    by with_unfolding_all decide, by with_unfolding_all decide,
    by with_unfolding_all decide⟩,
   ⟨by with_unfolding_all decide, by with_unfolding_all decide,
    by with_unfolding_all decide, by with_unfolding_all decide⟩⟩

end Spectra
